import Mathlib

/-!
Verification of the tf-pwa kinematics and spin-algebra engine.

Shallow embedding of the core functions of `tf_pwa/dfun.py`,
`tf_pwa/cal_angle.py` and `tf_pwa/cov_ten_ir.py`, together with theorems
settling the specification claims about them.  Batched tensor operations
are embedded per event (the batch dimension is data-parallel with no
cross-event interaction), machine floats become exact reals or rationals,
and Python dictionaries become functions into `Option`.
-/

noncomputable section

open Finset

/-! ## Embedding of `tf_pwa/dfun.py` -/

/-- Embedding of `small_d_weight(j)` from `dfun.py` (entry `[l][a][b]` of the
cached table, with `a = (m+j)/2`, `b = (n+j)/2` indexing the doubled magnetic
labels `m = 2a-j`, `n = 2b-j`).  The Python triple loop runs `k` over
`max(0, n-m) .. min(j-m, j+n)` in steps of 2 and stores the summand at
`l = (2k+m-n)//2`; writing `k = 2*kk`, the loop range is
`kk ∈ [max(0, b-a), min(j-a, b)]` and the slot hit is `l = 2*kk + a - b`,
each `(l,a,b)` being hit by at most one `kk`.  The factorials `f(x)=(x//2)!`
become `a!`, `(j-a)!`, `b!`, `(j-b)!` etc., and the sign
`(-1)^((k+m-n)/2) = (-1)^(kk+a-b) = (-1)^(kk+a+b)`. -/
def small_d_weight (j l a b : ℕ) : ℝ :=
  ∑ kk ∈ Finset.range (j + 1),
    if (l : ℤ) = 2 * kk + a - b ∧ (b : ℤ) - a ≤ kk ∧ (kk : ℤ) ≤ (j : ℤ) - a ∧ kk ≤ b then
      (-1 : ℝ) ^ (kk + a + b) *
        Real.sqrt ((a.factorial * (j - a).factorial * (b.factorial * (j - b).factorial) : ℕ)) /
        (((j - a - kk).factorial * (b - kk).factorial *
          ((kk + a - b).factorial * kk.factorial) : ℕ))
    else 0

/-- Embedding of `small_d_matrix(theta, j)` from `dfun.py`: entry `[a][b]` of
`einsum("il,lab->iab", sc, w)` where `sc[l] = sin(theta/2)^l * cos(theta/2)^(j-l)`
(`tf.pow` of the reshaped range `0..j`). -/
def small_d_matrix (theta : ℝ) (j : ℕ) (a b : ℕ) : ℝ :=
  ∑ l ∈ Finset.range (j + 1),
    Real.sin (theta / 2) ^ l * Real.cos (theta / 2) ^ (j - l) * small_d_weight j l a b

/-- Embedding of `exp_i(theta, mi)` from `dfun.py`: `exp(i * (mi * theta))`. -/
def exp_i (theta : ℝ) (mi : ℤ) : ℂ :=
  Complex.exp (Complex.I * ((mi : ℝ) * theta))

/-- The doubled magnetic label held at index `a` of `np.arange(-j, j+1, 2)`
in `D_matrix_conj` (`j` is the doubled spin). -/
def mval (j a : ℕ) : ℤ := 2 * a - j

/-- Embedding of `D_matrix_conj(alpha, beta, gamma, j)` from `dfun.py`: entry
`[a][b]` of `(expi_alpha * expi_gamma) * dc` where the phase rows/columns are
`exp_i` at the doubled labels `np.arange(-j, j+1, 2)` and `dc` is the
complexified small-d matrix. -/
def D_matrix_conj (alpha beta gamma : ℝ) (j : ℕ) (a b : ℕ) : ℂ :=
  exp_i alpha (mval j a) * exp_i gamma (mval j b) * (small_d_matrix beta j a b : ℂ)

/-- The conjugate of the canonical Wigner D-matrix in the active z-y-z
convention, written from the spec's words for claim C1: entries
`e^{i m1 alpha} d^j_{m1,m2}(beta) e^{i m2 gamma}` where `m1 = (2a-j)/2` and
`m2 = (2b-j)/2` are the physical (half-integer) magnetic quantum numbers and
`d^j` is the small-d matrix built from the cached weight table.  This is the
spec-side definition that `D_matrix_conj` is compared against. -/
def canonical_D_conj_spec (alpha beta gamma : ℝ) (j : ℕ) (a b : ℕ) : ℂ :=
  Complex.exp (Complex.I * (((mval j a : ℝ) / 2) * alpha)) *
    Complex.exp (Complex.I * (((mval j b : ℝ) / 2) * gamma)) *
    (small_d_matrix beta j a b : ℂ)

/-! ## Embedding of `Getp` from `tf_pwa/cal_angle.py` -/

/-- Embedding of `Getp(M_0, M_1, M_2)` from `cal_angle.py`:
`p = (M0-M12S)(M0+M12S)(M0-M12D)(M0+M12D)`, `q = (p + |p|)/2`,
result `sqrt(q) / (2 M0)`. -/
def Getp (M_0 M_1 M_2 : ℝ) : ℝ :=
  let M12S := M_1 + M_2
  let M12D := M_1 - M_2
  let p := (M_0 - M12S) * (M_0 + M12S) * ((M_0 - M12D) * (M_0 + M12D))
  let q := (p + |p|) / 2
  Real.sqrt q / (2 * M_0)

/-- The product `(M0-(M1+M2))(M0+(M1+M2))(M0-(M1-M2))(M0+(M1-M2))` whose sign
`Getp` masks on. -/
def GetpProd (M_0 M_1 M_2 : ℝ) : ℝ :=
  (M_0 - (M_1 + M_2)) * (M_0 + (M_1 + M_2)) * ((M_0 - (M_1 - M_2)) * (M_0 + (M_1 - M_2)))

/-! ## Embedding of the angle derivations of `LorentzInvSC_m_zero` and
`LorentzInvSC_m_nzero` from `tf_pwa/cov_ten_ir.py` (single event; only the
polar and azimuthal angles, which is what claim C3 is about). -/

/-- The epsilon used by `LorentzInvSC_m_nzero`. -/
def epsTen : ℝ := 1 / 10 ^ 10

/-- Polar angle derived by `LorentzInvSC_m_zero`: with `x = p / p[...,0:1]`,
`Theta = where(x1 == 0 and x2 == 0, 0, acos(x3))`. -/
def Theta_m_zero (p : Fin 4 → ℝ) : ℝ :=
  let x1 := p 1 / p 0
  let x2 := p 2 / p 0
  let x3 := p 3 / p 0
  if x1 = 0 ∧ x2 = 0 then 0 else Real.arccos x3

/-- Azimuthal angle derived by `LorentzInvSC_m_zero`:
`Phi = where(x1 == 0 and x2 == 0, 0, where(x2 >= 0, acos(x1/sqrt(1-x3^2)), 2 pi - acos(x1/sqrt(1-x3^2))))`. -/
def Phi_m_zero (p : Fin 4 → ℝ) : ℝ :=
  let x1 := p 1 / p 0
  let x2 := p 2 / p 0
  let x3 := p 3 / p 0
  if x1 = 0 ∧ x2 = 0 then 0
  else if 0 ≤ x2 then Real.arccos (x1 / Real.sqrt (1 - x3 ^ 2))
  else 2 * Real.pi - Real.arccos (x1 / Real.sqrt (1 - x3 ^ 2))

/-- The normalised components `x = p / sqrt(pp)` used by
`LorentzInvSC_m_nzero`, with `pp = p0^2 - p1^2 - p2^2 - p3^2`. -/
def xNorm (p : Fin 4 → ℝ) (i : Fin 4) : ℝ :=
  p i / Real.sqrt (p 0 ^ 2 - p 1 ^ 2 - p 2 ^ 2 - p 3 ^ 2)

/-- Polar angle derived by `LorentzInvSC_m_nzero`:
`Theta = where(cut1, 0, acos(x3 / sqrt(x0^2 - 1)))` with
`cut1 = |x1| < eps and |x2| < eps and |x3| < eps`. -/
def Theta_m_nzero (p : Fin 4 → ℝ) : ℝ :=
  let x0 := xNorm p 0
  let x1 := xNorm p 1
  let x2 := xNorm p 2
  let x3 := xNorm p 3
  if |x1| < epsTen ∧ |x2| < epsTen ∧ |x3| < epsTen then 0
  else Real.arccos (x3 / Real.sqrt (x0 ^ 2 - 1))

/-- Azimuthal angle derived by `LorentzInvSC_m_nzero`:
`Phi = where(cut1, 0, where(cut2, 0, where(x2 > 0, acos(...), 2 pi - acos(...))))`
with `cut2 = |x1| < eps and |x2| < eps` and `cut1 = cut2 and |x3| < eps`. -/
def Phi_m_nzero (p : Fin 4 → ℝ) : ℝ :=
  let x0 := xNorm p 0
  let x1 := xNorm p 1
  let x2 := xNorm p 2
  let x3 := xNorm p 3
  if |x1| < epsTen ∧ |x2| < epsTen ∧ |x3| < epsTen then 0
  else if |x1| < epsTen ∧ |x2| < epsTen then 0
  else if 0 < x2 then Real.arccos (x1 / Real.sqrt (x0 ^ 2 - x3 ^ 2 - 1))
  else 2 * Real.pi - Real.arccos (x1 / Real.sqrt (x0 ^ 2 - x3 ^ 2 - 1))

end

/-! ## Embedding of the spin utilities of `tf_pwa/cov_ten_ir.py` -/

/-- Python's built-in `round` (banker's rounding: ties go to the even
integer), on exact rationals. -/
def pyround (x : ℚ) : ℤ :=
  if x - ⌊x⌋ = 1 / 2 then (if Even ⌊x⌋ then ⌊x⌋ else ⌊x⌋ + 1) else round x

/-- Embedding of `_half2(s)` from `cov_ten_ir.py`: `int(round(s * 2))`.
No check and no error of any kind: the value is rounded. -/
def half2 (s : ℚ) : ℤ := pyround (s * 2)

/-- Embedding of `_size(s)` from `cov_ten_ir.py`: `_half2(s) + 1`. -/
def sizeSpin (s : ℚ) : ℤ := half2 s + 1

/-- Embedding of `_S(s)` from `cov_ten_ir.py`: the exact rational
`S(_half2(s)) / 2` handed to sympy, i.e. the spin label actually used by
`CGlrs` (via `_S(l)`, `_S(li)`, ...) for every coupling computation. -/
def SQspin (s : ℚ) : ℚ := (half2 s : ℚ) / 2

/-- Embedding of `_srange(s)` from `cov_ten_ir.py`: the list
`[i - s for i in range(_size(s))]`. -/
def srangeSpin (s : ℚ) : List ℚ :=
  (List.range (sizeSpin s).toNat).map (fun i => (i : ℚ) - s)

/-! ## Decay topology data model (`tf_pwa/particle.py` interface as used by
`cal_angle.py`): a decay edge is a core particle together with its ordered
outgoing particles; a chain is a list of edges. Particles are opaque
hashable identities, embedded as naturals. -/

/-- A decay edge `core -> outs` (`BaseDecay`). -/
structure DecayE where
  core : ℕ
  outs : List ℕ
deriving DecidableEq, Repr

/-- All outgoing particles of a list of decay edges, in order. -/
def allOuts (c : List DecayE) : List ℕ := (c.map DecayE.outs).flatten

/-- Finite-map update used to embed Python dictionary assignment. -/
def upd {A : Type} (f : ℕ → Option A) (k : ℕ) (v : A) : ℕ → Option A :=
  fun p => if p = k then some v else f p

/-! ## Embedding of `cal_helicity_angle` from `tf_pwa/cal_angle.py`

The SU(2) / Lorentz-vector primitives it calls (`LorentzVector.rest_vector`,
`LorentzVector.vect`, `EulerAngle.angle_zx_z_getx`, `SU2M.Boost_z_from_p`,
`SU2M.Rotation_y`, `SU2M.Rotation_z` and `SU2M.__mul__`) live in
`tf_pwa/angle.py`, which is not part of the sources.  Modelled from the spec:
they are abstract parameters (a `HelPrims` bundle) with the call signatures
the spec describes ("Boost every outgoing particle's momentum into its
parent's rest frame", "compute the Euler angle that rotates the known x/z
axes onto the new z-axis", "the composed rotation/boost operator ... as a
2x2 group element"); the claim C2 under scrutiny is about how
`cal_helicity_angle` composes these primitives, which is exactly what the
embedding retains. The `ret[i][j]["x"]/["z"]` output mirrors and the joint
three-body angle `ret[i]["ang"]` (output-only values that never feed back
into `r_matrix`) are not tracked. -/

/-- Euler-angle record (the `{"alpha": .., "beta": .., "gamma": ..}` dict). -/
structure AngT (R : Type) where
  alpha : R
  beta : R
  gamma : R
deriving DecidableEq, Repr

/-- The abstract primitives of `tf_pwa/angle.py` used by
`cal_helicity_angle`: four-vectors `V`, three-vectors `V3`, angle scalars
`R`, SU2M group elements `M`. -/
structure HelPrims (V V3 R M : Type) where
  restVector : V → V → V
  vect : V → V3
  angleZxZGetx : V3 → V3 → V3 → AngT R × V3
  boostZ : V → M
  rotY : R → M
  rotZ : R → M
  mmul : M → M → M

/-- The mutable maps of `cal_helicity_angle`: `set_x`, `set_z`, `r_matrix`,
and the per-particle `ret[i][j]["ang"]` entries (keyed by the outgoing
particle, which identifies the decay uniquely in a well-formed chain). -/
structure HelState (V3 R M : Type) where
  setX : ℕ → Option V3
  setZ : ℕ → Option V3
  rMat : ℕ → Option M
  angOf : ℕ → Option (AngT R)

variable {V V3 R M : Type}

/-- One iteration of the `for j in i.outs` loop of `cal_helicity_angle`
(the two-body-style pass, which runs for every arity): boost `j` into the
core's rest frame, compute its Euler angles from the core's frame, store
frame, angle and accumulated `r_matrix` for `j`. -/
def applyOut2 (P : HelPrims V V3 R M) (data : ℕ → V) (core : ℕ)
    (s : HelState V3 R M) (j : ℕ) : HelState V3 R M :=
  match s.setZ core, s.setX core with
  | some zc, some xc =>
    let prest := P.restVector (data core) (data j)
    let z2 := P.vect prest
    let ax := P.angleZxZGetx zc xc z2
    let r := P.mmul (P.mmul (P.boostZ prest) (P.rotY ax.1.beta)) (P.rotZ ax.1.alpha)
    let rj := match s.rMat core with
      | some rc => P.mmul r rc
      | none => r
    { setX := upd s.setX j ax.2, setZ := upd s.setZ j z2,
      rMat := upd s.rMat j rj, angOf := upd s.angOf j ax.1 }
  | _, _ => s

/-- One iteration of the `for j, x, z, p_rest_i in zip(...)` loop of the
three-body branch: the rotation part reuses the Python variable `ang`,
which at that point holds the angles computed for the LAST outgoing
particle in the preceding two-body loop; only `r_matrix[j]` is updated. -/
def applyOut3 (P : HelPrims V V3 R M) (data : ℕ → V) (core : ℕ) (angL : AngT R)
    (s : HelState V3 R M) (j : ℕ) : HelState V3 R M :=
  let prest := P.restVector (data core) (data j)
  let r := P.mmul (P.mmul (P.boostZ prest) (P.rotY angL.beta)) (P.rotZ angL.alpha)
  { s with rMat := upd s.rMat j (match s.rMat core with
      | some rc => P.mmul r rc
      | none => r) }

/-- Processing of one decay whose core frame is resolved: the two-body loop
over `i.outs`, then, if `len(i.outs) == 3`, the three-body loop that
overwrites `r_matrix` using the leftover `ang` variable. -/
def processDecay (P : HelPrims V V3 R M) (data : ℕ → V)
    (s : HelState V3 R M) (d : DecayE) : HelState V3 R M :=
  let s1 := d.outs.foldl (applyOut2 P data d.core) s
  if d.outs.length = 3 then
    match d.outs.getLast? with
    | some jl =>
      match s1.angOf jl with
      | some angL => d.outs.foldl (applyOut3 P data d.core angL) s1
      | none => s1
    | none => s1
  else s1

/-- One pass of the `while set_decay:` loop body: process every decay whose
core is in `set_x`, collect the others into `extra_decay`. -/
def passOnce (P : HelPrims V V3 R M) (data : ℕ → V)
    (acc : HelState V3 R M × List DecayE) (ds : List DecayE) :
    HelState V3 R M × List DecayE :=
  ds.foldl
    (fun acc d =>
      if (acc.1.setX d.core).isSome then (processDecay P data acc.1 d, acc.2)
      else (acc.1, acc.2 ++ [d]))
    acc

/-- The `while set_decay:` loop, with fuel (the Python loop diverges on a
chain that never resolves; with fuel `length + 1` it terminates on every
well-formed chain, since each pass resolves at least one decay). -/
def runHel (P : HelPrims V V3 R M) (data : ℕ → V) :
    ℕ → HelState V3 R M × List DecayE → HelState V3 R M
  | 0, sd => sd.1
  | n + 1, (s, ds) => if ds.isEmpty then s else runHel P data n (passOnce P data (s, []) ds)

/-- The initial state of `cal_helicity_angle`:
`set_x = {top: base_x}`, `set_z = {top: base_z}`, `r_matrix = {}`. -/
def initHelState (baseZ baseX : V3) (top : ℕ) : HelState V3 R M :=
  { setX := upd (fun _ => none) top baseX,
    setZ := upd (fun _ => none) top baseZ,
    rMat := fun _ => none,
    angOf := fun _ => none }

/-- Embedding of `cal_helicity_angle(data, decay_chain, base_z, base_x)`
(the state it builds; `top` is `decay_chain.top`). -/
def cal_helicity_angle (P : HelPrims V V3 R M) (data : ℕ → V)
    (chain : List DecayE) (top : ℕ) (baseZ baseX : V3) : HelState V3 R M :=
  runHel P data (chain.length + 1) (initHelState baseZ baseX top, chain)

/-- The rotation/boost element built for outgoing particle `j` of a decay
with core `core` from j's OWN two-body helicity angles, as claim C2 states
it: `Boost_z_from_p(p_rest) * Rotation_y(beta_j) * Rotation_z(alpha_j)`. -/
def ownR (P : HelPrims V V3 R M) (data : ℕ → V) (core j : ℕ) (zc xc : V3) : M :=
  let prest := P.restVector (data core) (data j)
  let a := (P.angleZxZGetx zc xc (P.vect prest)).1
  P.mmul (P.mmul (P.boostZ prest) (P.rotY a.beta)) (P.rotZ a.alpha)

/-- The rotation/boost element the three-body branch actually builds for
outgoing particle `j`: its own boost, but the beta/alpha of the angle
record `angL` (the LAST daughter's two-body angles). -/
def lastR (P : HelPrims V V3 R M) (data : ℕ → V) (core j : ℕ) (angL : AngT R) : M :=
  let prest := P.restVector (data core) (data j)
  P.mmul (P.mmul (P.boostZ prest) (P.rotY angL.beta)) (P.rotZ angL.alpha)

/-- Composition with the parent's accumulated `r_matrix` exactly as the
code does it: `r * r_matrix[core]` when the core has an entry, else `r`
alone (the claim's "absent, i.e. identity, at the top particle"). -/
def withParent {V V3 R M : Type} (P : HelPrims V V3 R M) (rc : Option M) (r : M) : M :=
  match rc with
  | some rcm => P.mmul r rcm
  | none => r

/-- The `r_matrix` entries `cal_helicity_angle` stores for the outgoing
particles of one decay, given the core's resolved frame `(zc, xc)` and the
core's accumulated entry `rcOld`: for a vertex that is not three-body,
each outgoing particle's OWN boost and two-body Euler angles; for a
three-body vertex, each particle's own boost but the beta/alpha of the
LAST outgoing particle's two-body angles (the Python loop's leftover `ang`
variable). -/
def RSpecAt {V V3 R M : Type} (P : HelPrims V V3 R M) (data : ℕ → V) (rcOld : Option M)
    (d : DecayE) (zc xc : V3) (rmat : ℕ → Option M) : Prop :=
  if d.outs.length = 3 then
    ∃ jl, d.outs.getLast? = some jl ∧
      ∀ j ∈ d.outs, rmat j = some (withParent P rcOld (lastR P data d.core j
        ((P.angleZxZGetx zc xc (P.vect (P.restVector (data d.core) (data jl)))).1)))
  else
    ∀ j ∈ d.outs, rmat j = some (withParent P rcOld (ownR P data d.core j zc xc))

/-- The invariant carried through the `while set_decay:` loop: domains of
`set_x`, `set_z`, `r_matrix` are the top plus the outs of the processed
decays, every processed core was resolvable, and every processed decay's
stored `r_matrix` entries satisfy `RSpecAt` for its core's stored frame. -/
def HelInv {V V3 R M : Type} (P : HelPrims V V3 R M) (data : ℕ → V) (top : ℕ)
    (processed : List DecayE) (s : HelState V3 R M) : Prop :=
  (∀ q, (s.setX q).isSome = true ↔ (q = top ∨ q ∈ allOuts processed)) ∧
  (∀ q, (s.setZ q).isSome = true ↔ (q = top ∨ q ∈ allOuts processed)) ∧
  (∀ q, (s.rMat q).isSome = true ↔ q ∈ allOuts processed) ∧
  (∀ d ∈ processed, d.core = top ∨ d.core ∈ allOuts processed) ∧
  (∀ d ∈ processed, ∃ zc xc, s.setZ d.core = some zc ∧ s.setX d.core = some xc ∧
    RSpecAt P data (s.rMat d.core) d zc xc s.rMat)

/-- Bottom-up processability of a chain list in its given order: every core
is the top or an out of an earlier decay (`seen` accumulates outs). -/
def topoOKB (top : ℕ) : List ℕ → List DecayE → Bool
  | _, [] => true
  | seen, d :: ds => (d.core = top ∨ d.core ∈ seen : Bool) && topoOKB top (seen ++ d.outs) ds

/-! ## Embedding of the reference-chain selection of
`cal_angle_from_particle` from `tf_pwa/cal_angle.py` (claim C4): the two
`set_x`-building loops and the aligned-angle loop.  Chains are compared by
value (tf-pwa particles and decays implement structural equality; the spec:
"Identity nodes representing the same physical set of final-state particles
must compare equal regardless of construction order"). -/

/-- A decay group: a top particle, the shared final state, and the
alternative chains (`decay_chain_struct` in iteration order). -/
structure DGroup where
  top : ℕ
  outs : List ℕ
  chains : List (List DecayE)
deriving DecidableEq, Repr

/-- The reference map type: `set_x` maps a particle to a (chain, decay)
pair. -/
abbrev RefMapT := ℕ → Option (List DecayE × DecayE)

/-- Innermost step of the first `set_x` loop: insert `(chain, decay)` for
`i` if `i` is not yet present and `i` is a group out. -/
def refStep1out (g : DGroup) (chain : List DecayE) (d : DecayE) (m : RefMapT) (i : ℕ) :
    RefMapT :=
  if m i = none ∧ i ∈ g.outs then upd m i (chain, d) else m

/-- Per-decay step of the first loop: only decays with
`decay.core == decay_group.top` contribute. -/
def refStep1dec (g : DGroup) (chain : List DecayE) (m : RefMapT) (d : DecayE) : RefMapT :=
  if d.core = g.top then d.outs.foldl (refStep1out g chain d) m else m

/-- Per-chain step of the first loop. -/
def refStep1chain (g : DGroup) (m : RefMapT) (chain : List DecayE) : RefMapT :=
  chain.foldl (refStep1dec g chain) m

/-- First loop building `set_x` (`ref_matrix` always holds the same chain):
for each chain in iteration order, for each decay with core equal to the
group top, for each outgoing `i`, insert `(chain, decay)` if `i` is not yet
present and `i` is a group out. -/
def refPass1 (g : DGroup) : RefMapT :=
  g.chains.foldl (refStep1chain g) (fun _ => none)

/-- Innermost step of the second loop: `if i == j: set_x[i] = (c0, d)`
(no absence guard — the last match wins). -/
def refStep2out (c0 : List DecayE) (d : DecayE) (i : ℕ) (m : RefMapT) (j : ℕ) : RefMapT :=
  if i = j then upd m i (c0, d) else m

/-- Per-decay step of the second loop. -/
def refStep2dec (c0 : List DecayE) (i : ℕ) (m : RefMapT) (d : DecayE) : RefMapT :=
  d.outs.foldl (refStep2out c0 d i) m

/-- Per-out step of the second loop: for a group out `i` still absent, scan
the FIRST chain (`next(iter(decay_chain_struct))`). -/
def refStep2i (g : DGroup) (m : RefMapT) (i : ℕ) : RefMapT :=
  if m i = none then
    match g.chains.head? with
    | some c0 => c0.foldl (refStep2dec c0 i) m
    | none => m
  else m

/-- Second loop completing `set_x` over the group outs. -/
def refPass2 (g : DGroup) (m0 : RefMapT) : RefMapT :=
  g.outs.foldl (refStep2i g) m0

/-- The final `set_x` map of reference (chain, decay) pairs. -/
def refMap (g : DGroup) : RefMapT := refPass2 g (refPass1 g)

/-- Innermost step of the aligned-angle loop: record the triple when
`i in decay_group.outs and decay_chain != set_x[i][0]`.  (When `set_x`
misses `i`, Python raises; the theorems only use this under hypotheses
that make `set_x[i]` present.) -/
def alignOut (g : DGroup) (chain : List DecayE) (d : DecayE)
    (acc : List (List DecayE × DecayE × ℕ)) (i : ℕ) : List (List DecayE × DecayE × ℕ) :=
  if i ∈ g.outs ∧ (refMap g i).map Prod.fst ≠ some chain then acc ++ [(chain, d, i)]
  else acc

/-- Per-decay step of the aligned-angle loop. -/
def alignDec (g : DGroup) (chain : List DecayE)
    (acc : List (List DecayE × DecayE × ℕ)) (d : DecayE) : List (List DecayE × DecayE × ℕ) :=
  d.outs.foldl (alignOut g chain d) acc

/-- Per-chain step of the aligned-angle loop. -/
def alignChain (g : DGroup) (acc : List (List DecayE × DecayE × ℕ))
    (chain : List DecayE) : List (List DecayE × DecayE × ℕ) :=
  chain.foldl (alignDec g chain) acc

/-- Third loop: the `(chain, decay, particle)` triples that receive an
`aligned_angle` entry. -/
def alignedTriples (g : DGroup) : List (List DecayE × DecayE × ℕ) :=
  g.chains.foldl (alignChain g) []

/-- The reference chain in the words of the spec and claim C4: "prefer the
chain where that particle is a direct daughter of the group's top; fall
back to the first chain in iteration order". -/
def refChainSpec (g : DGroup) (p : ℕ) : Option (List DecayE) :=
  match g.chains.find? (fun c => c.any (fun d => d.core = g.top && p ∈ d.outs)) with
  | some c => some c
  | none => g.chains.head?

/-! ## Embedding of `infer_momentum` from `tf_pwa/cal_angle.py` (claim C8)

`infer_momentum` iterates over `decay_chain.sorted_table()`; `sorted_table`
lives in `tf_pwa/particle.py`, which is not part of the sources.  Modelled
from the spec: the `DecayChain` "provides a topologically sorted traversal
(descendants before ancestors is used when inferring momentum)" and the
momentum record is "populated bottom-up by summing outgoing momenta", so
the traversal is modelled as the chain's decay list itself — each core
paired with its outgoing particles — together with a bottom-up-order
hypothesis (`momBUpB`) on the theorems.  (Entries of the real table for
final-state particles map them to themselves and are always skipped by the
`if i in data: continue` guard, so they are omitted.)  A lookup of a
missing outgoing particle raises KeyError in Python; that path is
unreachable under the theorems' hypotheses and is modelled as a skip. -/

/-- One step of the `for i in st:` loop of `infer_momentum` for a core with
its outgoing particles: `if i in data: continue` else
`data[i] = sum(data[j]["p"] for j in st[i])` (when every outgoing lookup
succeeds; a missing one raises KeyError in Python, modelled as a skip and
unreachable under the theorems' hypotheses). -/
def inferStep {V : Type} [AddCommMonoid V] (dat : ℕ → Option V) (d : DecayE) :
    ℕ → Option V :=
  match dat d.core with
  | some _ => dat
  | none =>
    if d.outs.all (fun j => (dat j).isSome) then
      upd dat d.core ((d.outs.map (fun j => (dat j).getD 0)).sum)
    else dat

/-- Embedding of `infer_momentum(data, decay_chain)`: fold the traversal. -/
def infer_momentum {V : Type} [AddCommMonoid V] (dat : ℕ → Option V)
    (chain : List DecayE) : ℕ → Option V :=
  chain.foldl inferStep dat

/-- Bottom-up order of the modelled traversal: every outgoing particle of a
decay that is some core of the chain is the core of an EARLIER decay. -/
def momBUpB (allCores : List ℕ) : List ℕ → List DecayE → Bool
  | _, [] => true
  | seen, d :: ds =>
    (d.outs.all (fun j => !(allCores.contains j) || seen.contains j)) &&
      momBUpB allCores (seen ++ [d.core]) ds

/-- The cores of a chain. -/
def chainCores (c : List DecayE) : List ℕ := c.map DecayE.core

/-! ## Embedding of `get_relative_momentum` from `tf_pwa/cal_angle.py`
(claim C10).  Python dictionary / list accesses that can raise are modelled
in an `Except` monad with the two error kinds that can occur. -/

/-- The Python exceptions reachable from `get_relative_momentum`. -/
inductive PyErr where
  | keyError : PyErr
  | indexError : PyErr
deriving DecidableEq, Repr

/-- Per-particle entry of the input record: the optional `"m"` value
(`data[p]["m"]`); mass batches are embedded per event as reals. -/
structure MassEntry where
  m : Option ℝ

/-- `lst[n]` with IndexError. -/
def pyListGet {A : Type} (l : List A) (n : ℕ) : Except PyErr A :=
  match l.get? n with
  | some a => Except.ok a
  | none => Except.error PyErr.indexError

/-- `data[p]["m"]` with KeyError on either lookup. -/
def pyGetM (data : ℕ → Option MassEntry) (p : ℕ) : Except PyErr ℝ :=
  match data p with
  | none => Except.error PyErr.keyError
  | some e =>
    match e.m with
    | none => Except.error PyErr.keyError
    | some v => Except.ok v

noncomputable section

/-- The loop body of `get_relative_momentum`, iterated over the chain:
look up the three masses (each lookup can raise), compute `Getp`, then
execute `ret["decay"][decay] = {}` — whose first step evaluates
`ret["decay"]`, a KeyError when the `"decay"` entry is absent — and
`ret["decay"][decay]["|q|"] = p`.  Written with explicit error
propagation. -/
def grmGo (data : ℕ → Option MassEntry) :
    Option (List (DecayE × ℝ)) → List DecayE → Except PyErr (Option (List (DecayE × ℝ)))
  | ret, [] => Except.ok ret
  | ret, d :: ds =>
    match pyGetM data d.core with
    | Except.error e => Except.error e
    | Except.ok m0 =>
      match pyListGet d.outs 0 with
      | Except.error e => Except.error e
      | Except.ok o0 =>
        match pyGetM data o0 with
        | Except.error e => Except.error e
        | Except.ok m1 =>
          match pyListGet d.outs 1 with
          | Except.error e => Except.error e
          | Except.ok o1 =>
            match pyGetM data o1 with
            | Except.error e => Except.error e
            | Except.ok m2 =>
              let q := Getp m0 m1 m2
              match ret with
              | none => Except.error PyErr.keyError
              | some dm => grmGo data (some (dm ++ [(d, q)])) ds

/-- Embedding of `get_relative_momentum(data, decay_chain)`:
`ret = {}` (so its `"decay"` entry is absent), then the loop. -/
def get_relative_momentum (data : ℕ → Option MassEntry) (chain : List DecayE) :
    Except PyErr (Option (List (DecayE × ℝ))) :=
  grmGo data none chain

end

/-! ## Analysis machinery for Wigner-D unitarity (claim C5)

The small-d matrix is related to the matrix of the degree-`j` induced action
of a 2x2 matrix on homogeneous binary forms, whose multiplicativity gives
orthogonality of the small-d rows.  These are proof-side definitions, not
embeddings of source code. -/

noncomputable section

open MvPolynomial

/-- Exponent record of the monomial `X0^i * X1^(j-i)`. -/
def monIdx (j i : ℕ) : Fin 2 →₀ ℕ :=
  Finsupp.single 0 i + Finsupp.single 1 (j - i)

/-- Basis monomial of degree `j`. -/
def basisMon (j i : ℕ) : MvPolynomial (Fin 2) ℝ :=
  X 0 ^ i * X 1 ^ (j - i)

/-- The substitution `X0 ↦ p X0 + r X1`, `X1 ↦ q X0 + t X1`. -/
def sub2 (p q r t : ℝ) : Fin 2 → MvPolynomial (Fin 2) ℝ :=
  ![C p * X 0 + C r * X 1, C q * X 0 + C t * X 1]

/-- Matrix element of the degree-`j` induced action of the substitution on
binary forms: the coefficient of `X0^a X1^(j-a)` in the image of
`X0^b X1^(j-b)`. -/
def Nmat (j : ℕ) (p q r t : ℝ) (a b : ℕ) : ℝ :=
  coeff (monIdx j a) (bind₁ (sub2 p q r t) (basisMon j b))

/-- The same matrix element written as an explicit binomial double-product
sum. -/
def Nexpl (j : ℕ) (p q r t : ℝ) (a b : ℕ) : ℝ :=
  ∑ u ∈ Finset.range (j + 1),
    if u ≤ b ∧ u ≤ a ∧ a + b ≤ j + u then
      (b.choose u : ℝ) * ((j - b).choose (a - u) : ℝ) *
        (p ^ u * r ^ (b - u) * (q ^ (a - u) * t ^ (j - b - (a - u))))
    else 0

/-- The normalisation `sqrt(x! (j-x)!)` conjugating `Nmat` into small-d. -/
def DeltaW (j x : ℕ) : ℝ := Real.sqrt ((x.factorial * (j - x).factorial : ℕ))

/-- The summand value of the cached `small_d_weight` table. -/
def wTerm (j a b kk : ℕ) : ℝ :=
  (-1 : ℝ) ^ (kk + a + b) *
    Real.sqrt ((a.factorial * (j - a).factorial * (b.factorial * (j - b).factorial) : ℕ)) /
    (((j - a - kk).factorial * (b - kk).factorial *
      ((kk + a - b).factorial * kk.factorial) : ℕ))

/-- The contribution of loop index `kk` to a small-d entry after the power
sum over `l` has been collapsed. -/
def dTermL (s c : ℝ) (j a b kk : ℕ) : ℝ :=
  if (b : ℤ) - a ≤ kk ∧ (kk : ℤ) ≤ (j : ℤ) - a ∧ kk ≤ b then
    s ^ (2 * kk + a - b) * c ^ (j - (2 * kk + a - b)) * wTerm j a b kk
  else 0

end

/-! ## Concrete instances used by counterexamples and witnesses -/

/-- A concrete instantiation of the `tf_pwa/angle.py` primitives over
integers, with formal words (lists) as group elements, used to exhibit the
three-body `r_matrix` behaviour of `cal_helicity_angle`.  The extracted
alpha/beta depend injectively on the new z-axis, as for generic momenta. -/
def PCex : HelPrims ℤ ℤ ℤ (List ℤ) :=
  { restVector := fun _ pj => pj,
    vect := fun v => v,
    angleZxZGetx := fun _z _x z2 => (⟨z2, z2 + 10, z2 + 20⟩, z2 + 30),
    boostZ := fun p => [p],
    rotY := fun b => [100 + b],
    rotZ := fun a => [200 + a],
    mmul := fun m1 m2 => m1 ++ m2 }

/-- Concrete momenta for the `PCex` runs. -/
def dataCex : ℕ → ℤ := fun i => (i : ℤ)

/-- A single three-body vertex `0 -> 1 2 3`. -/
def chainCex3 : List DecayE := [⟨0, [1, 2, 3]⟩]

/-- A two-level two-body chain `0 -> 1 2`, `1 -> 3 4`. -/
def chainCex2 : List DecayE := [⟨0, [1, 2]⟩, ⟨1, [3, 4]⟩]

/-- Momentum record for the C8 counterexample: the top particle `0` already
carries a (wrong) entry, while the outer particles `1`, `2` are present. -/
def momCex : ℕ → Option (Fin 4 → ℚ) := fun p =>
  if p = 0 then some ![5, 0, 0, 0]
  else if p = 1 then some ![1, 0, 0, 1]
  else if p = 2 then some ![1, 0, 0, -1]
  else none

/-- Momentum record for the C8 witness: only the outer particles. -/
def momWit : ℕ → Option (Fin 4 → ℚ) := fun p =>
  if p = 1 then some ![1, 0, 0, 1]
  else if p = 2 then some ![1, 0, 0, -1]
  else if p = 3 then some ![2, 1, 0, 0]
  else none

/-- Chain for C8: `5 -> 4 3`, `4 -> 1 2`, bottom-up order. -/
def chainMom : List DecayE := [⟨4, [1, 2]⟩, ⟨5, [4, 3]⟩]

/-- Decay group for the C4 witness: top `0`, final state `{3,4,5}`, two
chains; particle `5` is a direct daughter of the top only in the first
chain, particle `4` in neither. -/
def gWit : DGroup :=
  { top := 0, outs := [3, 4, 5],
    chains := [[⟨0, [1, 5]⟩, ⟨1, [3, 4]⟩], [⟨0, [2, 3]⟩, ⟨2, [4, 5]⟩]] }

/-! # Theorems -/

/-! ## Shared elementary lemmas -/

theorem Getp_eq (M_0 M_1 M_2 : ℝ) :
    Getp M_0 M_1 M_2 =
      Real.sqrt ((GetpProd M_0 M_1 M_2 + |GetpProd M_0 M_1 M_2|) / 2) / (2 * M_0) := rfl

theorem pyround_intCast (z : ℤ) : pyround (z : ℚ) = z := by
  unfold pyround
  rw [Int.floor_intCast]
  norm_num

theorem abs_pyround_sub (x : ℚ) : |(pyround x : ℚ) - x| ≤ 1 / 2 := by
  unfold pyround
  by_cases h : x - ⌊x⌋ = 1 / 2
  · by_cases he : Even ⌊x⌋ <;> simp only [h, he, if_true, if_false, ite_true, ite_false] <;>
      rw [abs_le] <;> constructor <;> push_cast <;> linarith [h]
  · simp only [h, if_false, ite_false]
    rw [abs_sub_comm]
    exact abs_sub_round x

/-! ## Claim C9: for spin label 0 the engine returns the 1x1 matrix 1 -/

/-- C9 (confirmed): for `j = 0` and every Euler angle triple,
`D_matrix_conj` returns, for each event, the 1x1 matrix whose single entry
is exactly 1. -/
theorem C9_spin0_identity (alpha beta gamma : ℝ) :
    D_matrix_conj alpha beta gamma 0 0 0 = 1 := by
  have hw : small_d_weight 0 0 0 0 = 1 := by
    rw [small_d_weight, Finset.sum_range_one]
    norm_num [Nat.factorial]
  have hd : small_d_matrix beta 0 0 0 = 1 := by
    rw [small_d_matrix, Finset.sum_range_one, hw]
    norm_num
  simp [D_matrix_conj, exp_i, mval, hd]

/-! ## Claim C7: `Getp` never raises and masks below-threshold events to 0 -/

/-- C7 (confirmed): for all masses with `M_0 > 0` and every event, `Getp`
is a total function (no exception path exists); when the threshold product
is negative the result is exactly 0, and otherwise it is
`sqrt(product) / (2 M_0)`. -/
theorem C7_Getp_masked (M_0 M_1 M_2 : ℝ) (_h : 0 < M_0) :
    (GetpProd M_0 M_1 M_2 < 0 → Getp M_0 M_1 M_2 = 0) ∧
    (0 ≤ GetpProd M_0 M_1 M_2 →
      Getp M_0 M_1 M_2 = Real.sqrt (GetpProd M_0 M_1 M_2) / (2 * M_0)) := by
  constructor
  · intro hp
    rw [Getp_eq, abs_of_neg hp]
    simp
  · intro hp
    rw [Getp_eq, abs_of_nonneg hp]
    ring_nf

/-- Witness for C7 at concrete masses: `(2, 3/2, 3/2)` is below threshold
(product `-20`) and yields exactly 0; `(2, 1, 1/2)` is above threshold. -/
theorem C7_witness :
    (0 : ℝ) < 2 ∧ GetpProd 2 (3 / 2) (3 / 2) < 0 ∧ Getp 2 (3 / 2) (3 / 2) = 0 ∧
      (0 : ℝ) ≤ GetpProd 2 1 (1 / 2) ∧
      Getp 2 1 (1 / 2) = Real.sqrt (GetpProd 2 1 (1 / 2)) / (2 * 2) :=
  ⟨by norm_num, by norm_num [GetpProd],
    (C7_Getp_masked 2 (3 / 2) (3 / 2) (by norm_num)).1 (by norm_num [GetpProd]),
    by norm_num [GetpProd],
    (C7_Getp_masked 2 1 (1 / 2) (by norm_num)).2 (by norm_num [GetpProd])⟩

/-! ## Claim C6: the spin utilities and `InvalidSpinError` -/

/-- C6 counterexample: on the non-half-integer spin `0.3` the utilities do
not fail at all — `_half2` silently rounds `0.6` to `1`, giving exactly the
same encoded spin and sympy label as for spin `1/2`. -/
theorem C6_counterexample :
    half2 (3 / 10) = 1 ∧ half2 (3 / 10) = half2 (1 / 2) ∧
      SQspin (3 / 10) = 1 / 2 ∧ (3 / 10 : ℚ) ≠ 1 / 2 := by
  refine ⟨?_, ?_, ?_, by norm_num⟩ <;>
    norm_num [half2, pyround, SQspin, Int.floor_eq_iff, round_eq]

/-- C6 (amended): no `InvalidSpinError` exists on this path; every rational
spin argument is silently coerced to the nearest half-integer (within 1/4):
`_half2`, `_size` and the sympy-level label `_S` treat `s` exactly as they
treat `round(2 s) / 2`. -/
theorem C6_amended_silent_coercion (s : ℚ) :
    ∃ sp : ℚ, 2 * sp = (half2 s : ℚ) ∧ |sp - s| ≤ 1 / 4 ∧
      half2 sp = half2 s ∧ sizeSpin sp = sizeSpin s ∧ SQspin sp = SQspin s := by
  refine ⟨SQspin s, ?_, ?_, ?_, ?_, ?_⟩
  · rw [SQspin]; ring
  · have h := abs_pyround_sub (s * 2)
    rw [SQspin, half2]
    rw [show (pyround (s * 2) : ℚ) / 2 - s = ((pyround (s * 2) : ℚ) - s * 2) / 2 by ring,
      abs_div]
    rw [show |(2 : ℚ)| = 2 by norm_num]
    linarith
  · simp only [SQspin, half2]
    rw [show (pyround (s * 2) : ℚ) / 2 * 2 = (pyround (s * 2) : ℚ) by ring]
    rw [pyround_intCast]
  · simp only [sizeSpin, SQspin, half2]
    rw [show (pyround (s * 2) : ℚ) / 2 * 2 = (pyround (s * 2) : ℚ) by ring,
      pyround_intCast]
  · simp only [SQspin, half2]
    rw [show (pyround (s * 2) : ℚ) / 2 * 2 = (pyround (s * 2) : ℚ) by ring,
      pyround_intCast]

/-! ## Claim C1: the phase convention of `D_matrix_conj` -/

theorem sqrt_four : Real.sqrt 4 = 2 := by
  rw [show (4 : ℝ) = 2 ^ 2 by norm_num]
  exact Real.sqrt_sq (by norm_num)

theorem small_d_weight_j2_top : small_d_weight 2 0 2 2 = 1 := by
  rw [small_d_weight]
  rw [Finset.sum_range_succ, Finset.sum_range_succ, Finset.sum_range_one]
  norm_num [Nat.factorial]
  rw [sqrt_four]
  norm_num

theorem small_d_matrix_j2_top (beta : ℝ) (h : Real.sin (beta / 2) = 0)
    (h2 : Real.cos (beta / 2) = 1) : small_d_matrix beta 2 2 2 = 1 := by
  rw [small_d_matrix, Finset.sum_range_succ, Finset.sum_range_succ, Finset.sum_range_one,
    h, h2, small_d_weight_j2_top]
  norm_num

/-- C1 counterexample: at spin label `j = 2` (spin 1), angles
`(alpha, beta, gamma) = (pi/2, 0, 0)`, the `(m1 = 1, m2 = 1)` entry of
`D_matrix_conj` is `e^{i pi} = -1`, while the conjugate canonical D-matrix
entry is `e^{i pi/2} = i`: the engine does not return the conjugate of the
canonical D-matrix. -/
theorem C1_counterexample :
    D_matrix_conj (Real.pi / 2) 0 0 2 2 2 ≠ canonical_D_conj_spec (Real.pi / 2) 0 0 2 2 2 := by
  have hd : small_d_matrix 0 2 2 2 = 1 :=
    small_d_matrix_j2_top 0 (by norm_num) (by norm_num)
  have hm : ((mval 2 2 : ℤ) : ℝ) = 2 := by norm_num [mval]
  have hL : D_matrix_conj (Real.pi / 2) 0 0 2 2 2 = -1 := by
    rw [D_matrix_conj, hd, exp_i, exp_i, hm]
    push_cast
    rw [show Complex.I * (2 * ((Real.pi : ℂ) / 2)) = (Real.pi : ℂ) * Complex.I by ring]
    simp [Complex.exp_pi_mul_I]
  have hR : canonical_D_conj_spec (Real.pi / 2) 0 0 2 2 2 = Complex.I := by
    rw [canonical_D_conj_spec, hd, hm]
    push_cast
    rw [show Complex.I * (2 / 2 * ((Real.pi : ℂ) / 2)) = ((Real.pi / 2 : ℝ) : ℂ) * Complex.I by
      push_cast; ring]
    rw [Complex.exp_mul_I, ← Complex.ofReal_cos, ← Complex.ofReal_sin,
      Real.cos_pi_div_two, Real.sin_pi_div_two]
    simp
  rw [hL, hR]
  intro hf
  have := congrArg Complex.im hf
  simp at this

/-- C1 (amended): `D_matrix_conj(alpha, beta, gamma, j)` has entries
`e^{i M1 alpha} d^j_{M1,M2}(beta) e^{i M2 gamma}` where `M1 = 2 m1`,
`M2 = 2 m2` are the DOUBLED magnetic labels of `np.arange(-j, j+1, 2)`;
equivalently it is the complex conjugate of the canonical z-y-z Wigner
D-matrix with `alpha` and `gamma` each doubled. -/
theorem C1_amended_doubled_phases (alpha beta gamma : ℝ) (j a b : ℕ) :
    D_matrix_conj alpha beta gamma j a b =
      canonical_D_conj_spec (2 * alpha) beta (2 * gamma) j a b := by
  simp only [D_matrix_conj, canonical_D_conj_spec, exp_i]
  rw [show (((mval j a : ℤ) : ℝ) : ℂ) * (alpha : ℂ) =
        (((mval j a : ℤ) : ℝ) : ℂ) / 2 * ((2 * alpha : ℝ) : ℂ) by push_cast; ring,
    show (((mval j b : ℤ) : ℝ) : ℂ) * (gamma : ℂ) =
        (((mval j b : ℤ) : ℝ) : ℂ) / 2 * ((2 * gamma : ℝ) : ℂ) by push_cast; ring]

/-! ## Claim C3: zero transverse momentum and the derived angles -/

/-- C3 counterexample: the massive branch with `p = (5, 0, 0, -4)` passes
the transverse-momentum epsilon test, yet the derived polar angle is
`acos(-1) = pi`, not 0. -/
theorem C3_counterexample :
    |xNorm ![5, 0, 0, (-4 : ℝ)] 1| < epsTen ∧ |xNorm ![5, 0, 0, (-4 : ℝ)] 2| < epsTen ∧
      Theta_m_nzero ![5, 0, 0, (-4 : ℝ)] = Real.pi ∧ Real.pi ≠ 0 := by
  have hpp : (![5, 0, 0, (-4 : ℝ)] 0) ^ 2 - (![5, 0, 0, (-4 : ℝ)] 1) ^ 2 -
      (![5, 0, 0, (-4 : ℝ)] 2) ^ 2 - (![5, 0, 0, (-4 : ℝ)] 3) ^ 2 = 9 := by
    norm_num
  have h9 : Real.sqrt 9 = 3 := by
    rw [show (9 : ℝ) = 3 ^ 2 by norm_num]
    exact Real.sqrt_sq (by norm_num)
  have hx0 : xNorm ![5, 0, 0, (-4 : ℝ)] 0 = 5 / 3 := by
    rw [xNorm, hpp, h9]; norm_num
  have hx1 : xNorm ![5, 0, 0, (-4 : ℝ)] 1 = 0 := by
    rw [xNorm, hpp, h9]; norm_num
  have hx2 : xNorm ![5, 0, 0, (-4 : ℝ)] 2 = 0 := by
    rw [xNorm, hpp, h9]; norm_num
  have hx3 : xNorm ![5, 0, 0, (-4 : ℝ)] 3 = -(4 / 3) := by
    rw [xNorm, hpp, h9]; norm_num
  have heps : (0 : ℝ) < epsTen := by norm_num [epsTen]
  refine ⟨by rw [hx1]; simpa using heps, by rw [hx2]; simpa using heps, ?_, Real.pi_ne_zero⟩
  rw [Theta_m_nzero]
  simp only [hx0, hx1, hx2, hx3]
  rw [if_neg]
  · have h169 : Real.sqrt ((5 / 3 : ℝ) ^ 2 - 1) = 4 / 3 := by
      rw [show ((5 / 3 : ℝ) ^ 2 - 1) = (4 / 3) ^ 2 by norm_num]
      exact Real.sqrt_sq (by norm_num)
    rw [h169, show (-(4 / 3) / (4 / 3) : ℝ) = -1 by norm_num, Real.arccos_neg_one]
  · intro hcut
    have := hcut.2.2
    rw [abs_of_nonpos (by norm_num)] at this
    norm_num [epsTen] at this

/-- C3 (amended): in the massless branch a vanishing transverse momentum
gives polar and azimuthal angle 0 as claimed; in the massive branch the
epsilon test on `x1, x2` forces only the azimuthal angle to 0 — the polar
angle is 0 only when additionally `|x3| < 1e-10`, and otherwise equals
`acos(x3 / sqrt(x0^2 - 1))` (which is `pi` at the counterexample input). -/
theorem C3_amended_degenerate_angles (p : Fin 4 → ℝ) :
    ((p 1 = 0 ∧ p 2 = 0) → Theta_m_zero p = 0 ∧ Phi_m_zero p = 0) ∧
    ((|xNorm p 1| < epsTen ∧ |xNorm p 2| < epsTen) →
      Phi_m_nzero p = 0 ∧ (|xNorm p 3| < epsTen → Theta_m_nzero p = 0)) := by
  constructor
  · rintro ⟨h1, h2⟩
    have hx1 : p 1 / p 0 = 0 := by rw [h1]; simp
    have hx2 : p 2 / p 0 = 0 := by rw [h2]; simp
    constructor
    · rw [Theta_m_zero, if_pos ⟨hx1, hx2⟩]
    · rw [Phi_m_zero, if_pos ⟨hx1, hx2⟩]
  · rintro ⟨h1, h2⟩
    constructor
    · rw [Phi_m_nzero]
      by_cases h3 : |xNorm p 3| < epsTen
      · rw [if_pos ⟨h1, h2, h3⟩]
      · rw [if_neg (by intro hc; exact h3 hc.2.2), if_pos ⟨h1, h2⟩]
    · intro h3
      rw [Theta_m_nzero, if_pos ⟨h1, h2, h3⟩]

/-- Witness for C3 at concrete events: `(1,0,0,1)` in the massless branch
and `(1,0,0,0)` in the massive branch. -/
theorem C3_witness :
    (Theta_m_zero ![1, 0, 0, (1 : ℝ)] = 0 ∧ Phi_m_zero ![1, 0, 0, (1 : ℝ)] = 0) ∧
      (Phi_m_nzero ![1, 0, 0, (0 : ℝ)] = 0 ∧ Theta_m_nzero ![1, 0, 0, (0 : ℝ)] = 0) := by
  have hm := (C3_amended_degenerate_angles ![1, 0, 0, (1 : ℝ)]).1 (by norm_num)
  have hpp : (![1, 0, 0, (0 : ℝ)] 0) ^ 2 - (![1, 0, 0, (0 : ℝ)] 1) ^ 2 -
      (![1, 0, 0, (0 : ℝ)] 2) ^ 2 - (![1, 0, 0, (0 : ℝ)] 3) ^ 2 = 1 := by norm_num
  have hx : ∀ i : Fin 4, xNorm ![1, 0, 0, (0 : ℝ)] i = ![1, 0, 0, (0 : ℝ)] i := by
    intro i
    rw [xNorm, hpp, Real.sqrt_one, div_one]
  have h1 : |xNorm ![1, 0, 0, (0 : ℝ)] 1| < epsTen := by
    rw [hx 1]; norm_num [epsTen]
  have h2 : |xNorm ![1, 0, 0, (0 : ℝ)] 2| < epsTen := by
    rw [hx 2]; norm_num [epsTen]
  have h3 : |xNorm ![1, 0, 0, (0 : ℝ)] 3| < epsTen := by
    rw [hx 3]; norm_num [epsTen]
  have hn := (C3_amended_degenerate_angles ![1, 0, 0, (0 : ℝ)]).2 ⟨h1, h2⟩
  exact ⟨hm, hn.1, hn.2 h3⟩

/-! ## Claim C10: `get_relative_momentum` always raises KeyError -/

theorem pyGetM_cases (data : ℕ → Option MassEntry) (p : ℕ) :
    pyGetM data p = Except.error PyErr.keyError ∨ ∃ v, pyGetM data p = Except.ok v := by
  rw [pyGetM]
  rcases data p with _ | me
  · exact Or.inl rfl
  · rcases me with ⟨_ | v⟩
    · exact Or.inl rfl
    · exact Or.inr ⟨v, rfl⟩

theorem pyListGet_ok {A : Type} (l : List A) (n : ℕ) (h : n < l.length) :
    ∃ a, pyListGet l n = Except.ok a := by
  rw [pyListGet]
  rcases hg : l.get? n with _ | a
  · rw [List.get?_eq_none] at hg
    omega
  · exact ⟨a, rfl⟩

/-- C10 (confirmed): for every data record and every non-empty chain of
two-or-more-body decays, `get_relative_momentum` raises KeyError — either
on a missing mass lookup or, when all masses are present, on `ret["decay"]`
which is read before that key is ever created — so the documented output
record with per-decay `"|q|"` entries is never produced. -/
theorem C10_always_keyerror (data : ℕ → Option MassEntry) (chain : List DecayE)
    (hne : chain ≠ []) (houts : ∀ d ∈ chain, 2 ≤ d.outs.length) :
    get_relative_momentum data chain = Except.error PyErr.keyError := by
  match chain, hne with
  | d :: ds, _ =>
    have hd : 2 ≤ d.outs.length := houts d (List.mem_cons_self d ds)
    obtain ⟨o0, h0⟩ := pyListGet_ok d.outs 0 (by omega)
    obtain ⟨o1, h1⟩ := pyListGet_ok d.outs 1 (by omega)
    rw [get_relative_momentum, grmGo]
    rcases pyGetM_cases data d.core with hm0 | ⟨m0, hm0⟩
    · simp only [hm0]
    · rcases pyGetM_cases data o0 with hm1 | ⟨m1, hm1⟩
      · simp only [hm0, h0, hm1]
      · rcases pyGetM_cases data o1 with hm2 | ⟨m2, hm2⟩
        · simp only [hm0, h0, hm1, h1, hm2]
        · simp only [hm0, h0, hm1, h1, hm2]

theorem C10_witness :
    get_relative_momentum (fun _ => none) [⟨0, [1, 2]⟩] = Except.error PyErr.keyError :=
  C10_always_keyerror (fun _ => none) [⟨0, [1, 2]⟩] (by simp)
    (by intro d hd; simp at hd; rw [hd]; norm_num)

/-! ## Claim C8: `infer_momentum` -/

theorem inferM_general {V : Type} [AddCommMonoid V] (allCores : List ℕ) :
    ∀ (rest : List DecayE) (seen : List ℕ) (dat : ℕ → Option V),
      momBUpB allCores seen rest = true →
      (∀ p ∈ seen, (dat p).isSome = true) →
      (∀ d ∈ rest, ∀ j ∈ d.outs, j ∉ allCores → (dat j).isSome = true) →
      (∀ d ∈ rest, dat d.core = none) →
      (chainCores rest).Nodup →
      (∀ p v, dat p = some v → rest.foldl inferStep dat p = some v) ∧
      (∀ d ∈ rest, (∀ j ∈ d.outs, (rest.foldl inferStep dat j).isSome = true) ∧
        rest.foldl inferStep dat d.core =
          some ((d.outs.map (fun j => ((rest.foldl inferStep dat j).getD 0))).sum))
  | [], seen, dat, _, _, _, _, _ => by
    refine ⟨fun p v h => h, fun d hd => absurd hd (by simp)⟩
  | d :: ds, seen, dat, hb, hseen, hleaves, hfresh, hnd => by
    rw [momBUpB, Bool.and_eq_true] at hb
    obtain ⟨hball, hb2⟩ := hb
    -- every outgoing particle of the head decay is present
    have houts_some : ∀ j ∈ d.outs, (dat j).isSome = true := by
      intro j hj
      by_cases hjc : j ∈ allCores
      · have := List.all_eq_true.mp hball j hj
        rw [Bool.or_eq_true, Bool.not_eq_true'] at this
        rcases this with hcf | hcs
        · exact absurd hjc (by simpa using hcf)
        · exact hseen j (by simpa using hcs)
      · exact hleaves d (List.mem_cons_self d ds) j hj hjc
    have hfd : dat d.core = none := hfresh d (List.mem_cons_self d ds)
    have hstep : inferStep dat d =
        upd dat d.core ((d.outs.map (fun j => (dat j).getD 0)).sum) := by
      rw [inferStep, hfd]
      rw [if_pos (List.all_eq_true.mpr houts_some)]
    have hEq : chainCores (d :: ds) = d.core :: chainCores ds := by
      simp only [chainCores, List.map_cons]
    rw [hEq] at hnd
    obtain ⟨hcore_not, hnd2⟩ := List.nodup_cons.mp hnd
    set S := (d.outs.map (fun j => (dat j).getD 0)).sum with hS
    set dat2 := upd dat d.core S with hdat2
    have hdat2core : dat2 d.core = some S := by rw [hdat2, upd, if_pos rfl]
    have hdat2other : ∀ p, p ≠ d.core → dat2 p = dat p := by
      intro p hp
      rw [hdat2, upd, if_neg hp]
    have ih := inferM_general allCores ds (seen ++ [d.core]) dat2 hb2
      (by
        intro p hp
        rcases List.mem_append.mp hp with hp | hp
        · by_cases hpc : p = d.core
          · rw [hpc, hdat2core]; rfl
          · rw [hdat2other p hpc]; exact hseen p hp
        · have : p = d.core := by simpa using hp
          rw [this, hdat2core]; rfl)
      (by
        intro d2 hd2 j hj hjc
        by_cases hpc : j = d.core
        · rw [hpc, hdat2core]; rfl
        · rw [hdat2other j hpc]
          exact hleaves d2 (List.mem_cons_of_mem d hd2) j hj hjc)
      (by
        intro d2 hd2
        have hne : d2.core ≠ d.core := by
          intro he
          exact hcore_not (he ▸ List.mem_map_of_mem DecayE.core hd2)
        rw [hdat2other d2.core hne]
        exact hfresh d2 (List.mem_cons_of_mem d hd2))
      hnd2
    obtain ⟨ih1, ih2⟩ := ih
    have hfold : (d :: ds).foldl inferStep dat = ds.foldl inferStep dat2 := by
      rw [List.foldl_cons, hstep]
    constructor
    · intro p v hv
      rw [hfold]
      apply ih1
      have hpc : p ≠ d.core := by
        intro he
        rw [he, hfd] at hv
        exact Option.noConfusion hv
      rw [hdat2other p hpc, hv]
    · intro d2 hd2
      rcases List.mem_cons.mp hd2 with he | hd2
      · rw [he]
        have hjval : ∀ j ∈ d.outs, ∃ w, dat j = some w ∧
            ds.foldl inferStep dat2 j = some w := by
          intro j hj
          obtain ⟨w, hw⟩ := Option.isSome_iff_exists.mp (houts_some j hj)
          refine ⟨w, hw, ?_⟩
          apply ih1
          have hjc : j ≠ d.core := by
            intro he2
            rw [he2, hfd] at hw
            exact Option.noConfusion hw
          rw [hdat2other j hjc, hw]
        constructor
        · intro j hj
          obtain ⟨w, _, hw2⟩ := hjval j hj
          rw [hfold, hw2]; rfl
        · rw [hfold, ih1 d.core S hdat2core]
          congr 1
          rw [hS]
          congr 1
          apply List.map_congr_left
          intro j hj
          obtain ⟨w, hw1, hw2⟩ := hjval j hj
          rw [hw1, hw2]
      · have := ih2 d2 hd2
        rw [hfold]
        exact this

/-- C8 (amended): when the input momentum record contains every outer
particle of the chain and NO internal particle of it, `infer_momentum`
leaves existing entries unchanged, maps every particle of the chain to a
momentum, and assigns every internal node (the top included) the sum of its
daughters' four-momenta.  (`momBUpB` is the descendants-before-ancestors
order of the modelled `sorted_table` traversal; `spec-modelled`.) -/
theorem C8_amended_infer_momentum {V : Type} [AddCommMonoid V]
    (dat : ℕ → Option V) (chain : List DecayE)
    (hleaves : ∀ d ∈ chain, ∀ j ∈ d.outs, j ∉ chainCores chain → (dat j).isSome = true)
    (hb : momBUpB (chainCores chain) [] chain = true)
    (hfresh : ∀ d ∈ chain, dat d.core = none)
    (hnd : (chainCores chain).Nodup) :
    (∀ p v, dat p = some v → infer_momentum dat chain p = some v) ∧
    (∀ d ∈ chain, (∀ j ∈ d.outs, (infer_momentum dat chain j).isSome = true) ∧
      infer_momentum dat chain d.core =
        some ((d.outs.map (fun j => ((infer_momentum dat chain j).getD 0))).sum)) :=
  inferM_general (chainCores chain) chain [] dat hb (by intro p hp; simp at hp)
    hleaves hfresh hnd

/-- C8 counterexample: a record that contains every outer particle of the
chain `0 -> 1 2` but also a (wrong) entry for the top `0`: `infer_momentum`
leaves the top entry unchanged, so the top's momentum does not equal the
sum of its daughters' momenta. -/
theorem C8_counterexample :
    (∀ j ∈ (DecayE.mk 0 [1, 2]).outs, (momCex j).isSome = true) ∧
    infer_momentum momCex [DecayE.mk 0 [1, 2]] 0 = momCex 0 ∧
    infer_momentum momCex [DecayE.mk 0 [1, 2]] 0 ≠
      some (((DecayE.mk 0 [1, 2]).outs.map
        (fun j => ((infer_momentum momCex [DecayE.mk 0 [1, 2]] j).getD 0))).sum) := by
  refine ⟨by decide, by decide, ?_⟩
  intro h
  have h0 : infer_momentum momCex [DecayE.mk 0 [1, 2]] 0 = some ![5, 0, 0, 0] := by decide
  have h1 : infer_momentum momCex [DecayE.mk 0 [1, 2]] 1 = some ![1, 0, 0, 1] := by decide
  have h2 : infer_momentum momCex [DecayE.mk 0 [1, 2]] 2 = some ![1, 0, 0, -1] := by decide
  rw [h0] at h
  simp only [DecayE.mk] at h
  rw [List.map_cons, List.map_cons, List.map_nil, h1, h2] at h
  have := Option.some.inj h
  have h5 := congrFun this 0
  norm_num at h5

/-- Witness for C8 on the concrete chain `5 -> 4 3`, `4 -> 1 2` with a
record holding exactly the outer particles `1, 2, 3`. -/
theorem C8_witness :
    (∀ p v, momWit p = some v → infer_momentum momWit chainMom p = some v) ∧
    (∀ d ∈ chainMom, (∀ j ∈ d.outs, (infer_momentum momWit chainMom j).isSome = true) ∧
      infer_momentum momWit chainMom d.core =
        some ((d.outs.map (fun j => ((infer_momentum momWit chainMom j).getD 0))).sum)) :=
  C8_amended_infer_momentum momWit chainMom (by decide) (by decide) (by decide) (by decide)
/-! ## Claim C4: reference-chain selection and aligned angles -/

theorem fold1out_key (g : DGroup) (chain : List DecayE) (d : DecayE) :
    ∀ (os : List ℕ) (m : RefMapT) (p : ℕ),
      os.foldl (refStep1out g chain d) m p =
        if m p = none ∧ p ∈ os ∧ p ∈ g.outs then some (chain, d) else m p
  | [], m, p => by simp
  | i :: os, m, p => by
    rw [List.foldl_cons, fold1out_key g chain d os (refStep1out g chain d m i) p]
    by_cases hpi : p = i
    · subst hpi
      by_cases hm : m p = none
      · by_cases hout : p ∈ g.outs
        · have hstep : refStep1out g chain d m p p = some (chain, d) := by
            rw [refStep1out, if_pos ⟨hm, hout⟩, upd, if_pos rfl]
          rw [hstep]
          simp [hm, hout]
        · have hstep : refStep1out g chain d m p = m := by
            rw [refStep1out, if_neg (by tauto)]
          rw [hstep]
          simp [hout]
      · have hstep : refStep1out g chain d m p = m := by
          rw [refStep1out, if_neg (by tauto)]
        rw [hstep]
        simp [hm]
    · have hstep : refStep1out g chain d m i p = m p := by
        rw [refStep1out]
        by_cases hc : m i = none ∧ i ∈ g.outs
        · rw [if_pos hc, upd, if_neg hpi]
        · rw [if_neg hc]
      rw [hstep]
      have hiff : (m p = none ∧ p ∈ os ∧ p ∈ g.outs) ↔
          (m p = none ∧ p ∈ i :: os ∧ p ∈ g.outs) := by
        simp [List.mem_cons, hpi]
      exact if_congr hiff rfl rfl

theorem fold1dec_key (g : DGroup) (chain : List DecayE) :
    ∀ (cl : List DecayE) (m : RefMapT) (p : ℕ),
      (¬(m p = none ∧ p ∈ g.outs ∧ ∃ d ∈ cl, d.core = g.top ∧ p ∈ d.outs) →
        cl.foldl (refStep1dec g chain) m p = m p) ∧
      ((m p = none ∧ p ∈ g.outs ∧ ∃ d ∈ cl, d.core = g.top ∧ p ∈ d.outs) →
        ∃ d ∈ cl, d.core = g.top ∧ p ∈ d.outs ∧
          cl.foldl (refStep1dec g chain) m p = some (chain, d))
  | [], m, p => ⟨fun _ => rfl, fun h => absurd h.2.2 (by simp)⟩
  | d0 :: cl, m, p => by
    have ih := fold1dec_key g chain cl (refStep1dec g chain m d0) p
    have hm1pos : m p = none ∧ p ∈ g.outs ∧ d0.core = g.top ∧ p ∈ d0.outs →
        refStep1dec g chain m d0 p = some (chain, d0) := by
      rintro ⟨h1, h2, h3, h4⟩
      rw [refStep1dec, if_pos h3, fold1out_key, if_pos ⟨h1, h4, h2⟩]
    have hm1neg : ¬(m p = none ∧ p ∈ g.outs ∧ d0.core = g.top ∧ p ∈ d0.outs) →
        refStep1dec g chain m d0 p = m p := by
      intro hneg
      rw [refStep1dec]
      by_cases h3 : d0.core = g.top
      · rw [if_pos h3, fold1out_key, if_neg (by tauto)]
      · rw [if_neg h3]
    constructor
    · intro hneg
      have hnegd0 : ¬(m p = none ∧ p ∈ g.outs ∧ d0.core = g.top ∧ p ∈ d0.outs) := by
        rintro ⟨h1, h2, h3, h4⟩
        exact hneg ⟨h1, h2, d0, List.mem_cons_self d0 cl, h3, h4⟩
      have e1 := hm1neg hnegd0
      have hnegcl : ¬(refStep1dec g chain m d0 p = none ∧ p ∈ g.outs ∧
          ∃ d ∈ cl, d.core = g.top ∧ p ∈ d.outs) := by
        rw [e1]
        rintro ⟨h1, h2, dd, hdd, h3, h4⟩
        exact hneg ⟨h1, h2, dd, List.mem_cons_of_mem d0 hdd, h3, h4⟩
      rw [List.foldl_cons, ih.1 hnegcl, e1]
    · rintro ⟨h1, h2, hex⟩
      by_cases hd0 : d0.core = g.top ∧ p ∈ d0.outs
      · have e1 : refStep1dec g chain m d0 p = some (chain, d0) :=
          hm1pos ⟨h1, h2, hd0.1, hd0.2⟩
      ------ the accumulated map is now set at p, so the tail leaves it
        have hnegcl : ¬(refStep1dec g chain m d0 p = none ∧ p ∈ g.outs ∧
            ∃ d ∈ cl, d.core = g.top ∧ p ∈ d.outs) := by
          rw [e1]
          rintro ⟨hc, -⟩
          exact Option.noConfusion hc
        refine ⟨d0, List.mem_cons_self d0 cl, hd0.1, hd0.2, ?_⟩
        rw [List.foldl_cons, ih.1 hnegcl, e1]
      · rcases hex with ⟨dd, hdd, h3, h4⟩
        have hdcl : dd ∈ cl := by
          rcases List.mem_cons.mp hdd with he | h
          · exact absurd ⟨he ▸ h3, he ▸ h4⟩ hd0
          · exact h
        have e1 := hm1neg (by tauto)
        obtain ⟨d', hd', h3', h4', hres⟩ := ih.2 ⟨by rw [e1]; exact h1, h2, dd, hdcl, h3, h4⟩
        refine ⟨d', List.mem_cons_of_mem d0 hd', h3', h4', ?_⟩
        rw [List.foldl_cons, hres]

theorem pass1_mono (g : DGroup) :
    ∀ (cs : List (List DecayE)) (m : RefMapT) (p : ℕ) (v : List DecayE × DecayE),
      m p = some v → cs.foldl (refStep1chain g) m p = some v
  | [], _, _, _, h => h
  | c :: cs, m, p, v, h => by
    rw [List.foldl_cons]
    apply pass1_mono g cs _ p v
    have e1 : refStep1chain g m c p = m p := by
      rw [refStep1chain]
      exact (fold1dec_key g c c m p).1 (by rw [h]; rintro ⟨hc, -⟩; exact Option.noConfusion hc)
    rw [e1, h]

theorem pass1_key (g : DGroup) :
    ∀ (cs : List (List DecayE)) (m : RefMapT) (p : ℕ), m p = none →
      (cs.foldl (refStep1chain g) m p).map Prod.fst =
        if p ∈ g.outs then
          cs.find? (fun c => c.any (fun d => d.core = g.top && p ∈ d.outs))
        else none
  | [], m, p, h => by simp [h]
  | c :: cs, m, p, h => by
    rw [List.foldl_cons]
    by_cases hout : p ∈ g.outs
    · by_cases hex : ∃ d ∈ c, d.core = g.top ∧ p ∈ d.outs
      · obtain ⟨d, hd, h3, h4, hres⟩ := (fold1dec_key g c c m p).2 ⟨h, hout, hex⟩
        have hfin : cs.foldl (refStep1chain g) (refStep1chain g m c) p = some (c, d) :=
          pass1_mono g cs _ p _ (by rw [refStep1chain]; exact hres)
        rw [hfin]
        have hpred : c.any (fun d => d.core = g.top && p ∈ d.outs) = true := by
          simp only [List.any_eq_true, Bool.and_eq_true, decide_eq_true_eq]
          exact ⟨d, hd, h3, h4⟩
        have hfindc : (c :: cs).find?
            (fun c2 => c2.any fun d2 => d2.core = g.top && p ∈ d2.outs) = some c :=
          List.find?_cons_of_pos cs hpred
        rw [hfindc, if_pos hout]
        rfl
      · have e1 : refStep1chain g m c p = m p := by
          rw [refStep1chain]
          exact (fold1dec_key g c c m p).1 (by rintro ⟨-, -, hx⟩; exact hex hx)
        rw [pass1_key g cs _ p (by rw [e1]; exact h)]
        have hpredneg : ¬c.any (fun d => d.core = g.top && p ∈ d.outs) = true := by
          simp only [List.any_eq_true, Bool.and_eq_true, decide_eq_true_eq]
          exact hex
        have hfindn : (c :: cs).find?
            (fun c2 => c2.any fun d2 => d2.core = g.top && p ∈ d2.outs) =
            cs.find? (fun c2 => c2.any fun d2 => d2.core = g.top && p ∈ d2.outs) :=
          List.find?_cons_of_neg cs hpredneg
        rw [hfindn]
    · have e1 : refStep1chain g m c p = m p := by
        rw [refStep1chain]
        exact (fold1dec_key g c c m p).1 (by rintro ⟨-, hx, -⟩; exact hout hx)
      rw [pass1_key g cs _ p (by rw [e1]; exact h), if_neg hout, if_neg hout]

theorem fold2out_key (c0 : List DecayE) (d : DecayE) (i : ℕ) :
    ∀ (os : List ℕ) (m : RefMapT),
      (∀ q, q ≠ i → os.foldl (refStep2out c0 d i) m q = m q) ∧
      (i ∈ os → os.foldl (refStep2out c0 d i) m i = some (c0, d)) ∧
      (i ∉ os → os.foldl (refStep2out c0 d i) m i = m i)
  | [], m => ⟨fun _ _ => rfl, fun h => absurd h (by simp), fun _ => rfl⟩
  | j :: os, m => by
    have ih := fold2out_key c0 d i os (refStep2out c0 d i m j)
    refine ⟨?_, ?_, ?_⟩
    · intro q hq
      rw [List.foldl_cons, ih.1 q hq, refStep2out]
      by_cases hij : i = j
      · rw [if_pos hij, upd, if_neg hq]
      · rw [if_neg hij]
    · intro hi
      rw [List.foldl_cons]
      by_cases hios : i ∈ os
      · rw [ih.2.1 hios]
      · have hij : i = j := by
          rcases List.mem_cons.mp hi with h | h
          · exact h
          · exact absurd h hios
        rw [ih.2.2 hios, refStep2out, if_pos hij, upd, if_pos rfl]
    · intro hni
      rw [List.foldl_cons, ih.2.2 (fun hh => hni (List.mem_cons_of_mem j hh)), refStep2out,
        if_neg (fun hh => hni (by rw [hh]; exact List.mem_cons_self j os))]

theorem fold2dec_key (c0 : List DecayE) (i : ℕ) :
    ∀ (cl : List DecayE) (m : RefMapT),
      (∀ q, q ≠ i → cl.foldl (refStep2dec c0 i) m q = m q) ∧
      ((∃ d ∈ cl, i ∈ d.outs) →
        ∃ d ∈ cl, i ∈ d.outs ∧ cl.foldl (refStep2dec c0 i) m i = some (c0, d)) ∧
      ((¬∃ d ∈ cl, i ∈ d.outs) → cl.foldl (refStep2dec c0 i) m i = m i)
  | [], m => ⟨fun _ _ => rfl, fun h => absurd h (by simp), fun _ => rfl⟩
  | d0 :: cl, m => by
    have ih := fold2dec_key c0 i cl (refStep2dec c0 i m d0)
    have hstep := fold2out_key c0 d0 i d0.outs m
    refine ⟨?_, ?_, ?_⟩
    · intro q hq
      rw [List.foldl_cons, ih.1 q hq, refStep2dec, hstep.1 q hq]
    · rintro ⟨d, hd, hdi⟩
      by_cases hcl : ∃ d ∈ cl, i ∈ d.outs
      · obtain ⟨d', hd', hdi', hres⟩ := ih.2.1 hcl
        exact ⟨d', List.mem_cons_of_mem d0 hd', hdi', by rw [List.foldl_cons]; exact hres⟩
      · have hd0 : i ∈ d0.outs := by
          rcases List.mem_cons.mp hd with he | hh
          · rw [← he]; exact hdi
          · exact absurd ⟨d, hh, hdi⟩ hcl
        refine ⟨d0, List.mem_cons_self d0 cl, hd0, ?_⟩
        rw [List.foldl_cons, ih.2.2 hcl, refStep2dec, hstep.2.1 hd0]
    · intro hncl
      have h1 : ¬∃ d ∈ cl, i ∈ d.outs :=
        fun ⟨d, hd, hdi⟩ => hncl ⟨d, List.mem_cons_of_mem d0 hd, hdi⟩
      have h0 : i ∉ d0.outs := fun hh => hncl ⟨d0, List.mem_cons_self d0 cl, hh⟩
      rw [List.foldl_cons, ih.2.2 h1, refStep2dec, hstep.2.2 h0]

theorem pass2_key (g : DGroup) (c0 : List DecayE) (hc0 : g.chains.head? = some c0) :
    ∀ (os : List ℕ) (m : RefMapT) (p : ℕ),
      (∀ v, m p = some v → os.foldl (refStep2i g) m p = some v) ∧
      (m p = none → p ∉ os → os.foldl (refStep2i g) m p = none) ∧
      (m p = none → p ∈ os →
        ((¬∃ d ∈ c0, p ∈ d.outs) → os.foldl (refStep2i g) m p = none) ∧
        ((∃ d ∈ c0, p ∈ d.outs) →
          ∃ d ∈ c0, p ∈ d.outs ∧ os.foldl (refStep2i g) m p = some (c0, d)))
  | [], m, p => ⟨fun _ h => h, fun h _ => h, fun _ hp => absurd hp (by simp)⟩
  | i :: os, m, p => by
    have ih := pass2_key g c0 hc0 os (refStep2i g m i) p
    have hother : p ≠ i → refStep2i g m i p = m p := by
      intro hpi
      rw [refStep2i]
      by_cases hm : m i = none
      · rw [if_pos hm, hc0]
        exact (fold2dec_key c0 i c0 m).1 p hpi
      · rw [if_neg hm]
    refine ⟨?_, ?_, ?_⟩
    · intro v hv
      rw [List.foldl_cons]
      apply ih.1 v
      by_cases hpi : p = i
      · subst hpi
        rw [refStep2i, if_neg (by rw [hv]; exact fun hc => Option.noConfusion hc)]
        exact hv
      · rw [hother hpi, hv]
    · intro hm hni
      have hpi : p ≠ i := fun hh => hni (by rw [hh]; exact List.mem_cons_self i os)
      rw [List.foldl_cons]
      exact ih.2.1 (by rw [hother hpi]; exact hm)
        (fun hh => hni (List.mem_cons_of_mem i hh))
    · intro hm hpmem
      by_cases hpi : p = i
      · subst hpi
        have hstep : refStep2i g m p = c0.foldl (refStep2dec c0 p) m := by
          rw [refStep2i, if_pos hm, hc0]
        constructor
        · intro hnex
          have e1 : refStep2i g m p p = m p := by
            rw [hstep]
            exact (fold2dec_key c0 p c0 m).2.2 hnex
          rw [List.foldl_cons]
          by_cases hos : p ∈ os
          · exact ((ih.2.2 (by rw [e1]; exact hm) hos).1 hnex)
          · exact ih.2.1 (by rw [e1]; exact hm) hos
        · intro hex
          obtain ⟨d, hd, hdi, hres⟩ := (fold2dec_key c0 p c0 m).2.1 hex
          have e1 : refStep2i g m p p = some (c0, d) := by rw [hstep]; exact hres
          refine ⟨d, hd, hdi, ?_⟩
          rw [List.foldl_cons]
          exact ih.1 (c0, d) e1
      · have e1 := hother hpi
        have hos : p ∈ os := by
          rcases List.mem_cons.mp hpmem with hh | hh
          · exact absurd hh hpi
          · exact hh
        constructor
        · intro hnex
          rw [List.foldl_cons]
          exact (ih.2.2 (by rw [e1]; exact hm) hos).1 hnex
        · intro hex
          rw [List.foldl_cons]
          exact (ih.2.2 (by rw [e1]; exact hm) hos).2 hex
theorem alignOut_mem (g : DGroup) (chain : List DecayE) (d : DecayE) :
    ∀ (os : List ℕ) (acc : List (List DecayE × DecayE × ℕ)) (x : List DecayE × DecayE × ℕ),
      (x ∈ os.foldl (alignOut g chain d) acc ↔
        x ∈ acc ∨ ∃ i ∈ os, x = (chain, d, i) ∧ i ∈ g.outs ∧
          (refMap g i).map Prod.fst ≠ some chain)
  | [], acc, x => by simp
  | i :: os, acc, x => by
    rw [List.foldl_cons, alignOut_mem g chain d os _ x, alignOut]
    by_cases hc : i ∈ g.outs ∧ (refMap g i).map Prod.fst ≠ some chain
    · rw [if_pos hc]
      constructor
      · rintro (hacc | ⟨j, hj, he, hp⟩)
        · rcases List.mem_append.mp hacc with hacc | hx
          · exact Or.inl hacc
          · refine Or.inr ⟨i, List.mem_cons_self i os, ?_, hc⟩
            simpa using hx
        · exact Or.inr ⟨j, List.mem_cons_of_mem i hj, he, hp⟩
      · rintro (hacc | ⟨j, hj, he, hp⟩)
        · exact Or.inl (List.mem_append.mpr (Or.inl hacc))
        · rcases List.mem_cons.mp hj with he2 | hj2
          · subst he2
            exact Or.inl (List.mem_append.mpr (Or.inr (by simp [he])))
          · exact Or.inr ⟨j, hj2, he, hp⟩
    · rw [if_neg hc]
      constructor
      · rintro (hacc | ⟨j, hj, he, hp⟩)
        · exact Or.inl hacc
        · exact Or.inr ⟨j, List.mem_cons_of_mem i hj, he, hp⟩
      · rintro (hacc | ⟨j, hj, he, hp⟩)
        · exact Or.inl hacc
        · rcases List.mem_cons.mp hj with he2 | hj2
          · subst he2
            exact absurd hp hc
          · exact Or.inr ⟨j, hj2, he, hp⟩

theorem alignDec_mem (g : DGroup) (chain : List DecayE) :
    ∀ (cl : List DecayE) (acc : List (List DecayE × DecayE × ℕ)) (x : List DecayE × DecayE × ℕ),
      (x ∈ cl.foldl (alignDec g chain) acc ↔
        x ∈ acc ∨ ∃ d ∈ cl, ∃ i ∈ d.outs, x = (chain, d, i) ∧ i ∈ g.outs ∧
          (refMap g i).map Prod.fst ≠ some chain)
  | [], acc, x => by simp
  | d :: cl, acc, x => by
    rw [List.foldl_cons, alignDec_mem g chain cl _ x, alignDec, alignOut_mem]
    constructor
    · rintro ((hacc | ⟨i, hi, he, hp⟩) | ⟨d', hd', i, hi, he, hp⟩)
      · exact Or.inl hacc
      · exact Or.inr ⟨d, List.mem_cons_self d cl, i, hi, he, hp⟩
      · exact Or.inr ⟨d', List.mem_cons_of_mem d hd', i, hi, he, hp⟩
    · rintro (hacc | ⟨d', hd', i, hi, he, hp⟩)
      · exact Or.inl (Or.inl hacc)
      · rcases List.mem_cons.mp hd' with he2 | hd2
        · subst he2
          exact Or.inl (Or.inr ⟨i, hi, he, hp⟩)
        · exact Or.inr ⟨d', hd2, i, hi, he, hp⟩

theorem alignChain_mem (g : DGroup) :
    ∀ (cs : List (List DecayE)) (acc : List (List DecayE × DecayE × ℕ))
      (x : List DecayE × DecayE × ℕ),
      (x ∈ cs.foldl (alignChain g) acc ↔
        x ∈ acc ∨ ∃ c ∈ cs, ∃ d ∈ c, ∃ i ∈ d.outs, x = (c, d, i) ∧ i ∈ g.outs ∧
          (refMap g i).map Prod.fst ≠ some c)
  | [], acc, x => by simp
  | c :: cs, acc, x => by
    rw [List.foldl_cons, alignChain_mem g cs _ x, alignChain, alignDec_mem]
    constructor
    · rintro ((hacc | ⟨d, hd, i, hi, he, hp⟩) | ⟨c', hc', d, hd, i, hi, he, hp⟩)
      · exact Or.inl hacc
      · exact Or.inr ⟨c, List.mem_cons_self c cs, d, hd, i, hi, he, hp⟩
      · exact Or.inr ⟨c', List.mem_cons_of_mem c hc', d, hd, i, hi, he, hp⟩
    · rintro (hacc | ⟨c', hc', d, hd, i, hi, he, hp⟩)
      · exact Or.inl (Or.inl hacc)
      · rcases List.mem_cons.mp hc' with he2 | hc2
        · subst he2
          exact Or.inl (Or.inr ⟨d, hd, i, hi, he, hp⟩)
        · exact Or.inr ⟨c', hc2, d, hd, i, hi, he, hp⟩

theorem alignedTriples_mem (g : DGroup) (x : List DecayE × DecayE × ℕ) :
    x ∈ alignedTriples g ↔
      ∃ c ∈ g.chains, ∃ d ∈ c, ∃ i ∈ d.outs, x = (c, d, i) ∧ i ∈ g.outs ∧
        (refMap g i).map Prod.fst ≠ some c := by
  rw [alignedTriples, alignChain_mem]
  simp

/-- C4 (confirmed): the reference chain for a final-state particle `p` is
chosen deterministically — the first chain (in iteration order) containing
a decay whose core is the group top with `p` among its outs, else the first
chain — and an `aligned_angle` entry is computed for `p` in exactly the
chains that are not `p`'s reference chain. -/
theorem C4_reference_chain (g : DGroup) (p : ℕ) (hne : g.chains ≠ [])
    (hp : p ∈ g.outs) (hall : ∀ c ∈ g.chains, ∃ d ∈ c, p ∈ d.outs) :
    (refMap g p).map Prod.fst = refChainSpec g p ∧
    (∀ c ∈ g.chains, ((∃ d, (c, d, p) ∈ alignedTriples g) ↔ refChainSpec g p ≠ some c)) := by
  obtain ⟨c0, hc0⟩ : ∃ c0, g.chains.head? = some c0 := by
    cases hcs : g.chains with
    | nil => exact absurd hcs hne
    | cons a l => exact ⟨a, rfl⟩
  have hfirst : ∃ d ∈ c0, p ∈ d.outs :=
    hall c0 (List.mem_of_mem_head? (by rw [hc0]; exact rfl))
  have hfind : (refPass1 g p).map Prod.fst =
      (if p ∈ g.outs then
        g.chains.find? (fun c => c.any (fun d => d.core = g.top && p ∈ d.outs))
      else none) :=
    pass1_key g g.chains (fun _ => none) p rfl
  rw [if_pos hp] at hfind
  have hpart1 : (refMap g p).map Prod.fst = refChainSpec g p := by
    cases hp1 : refPass1 g p with
    | some v =>
      have hmap : refMap g p = some v := by
        rw [refMap, refPass2]
        exact (pass2_key g c0 hc0 g.outs (refPass1 g) p).1 v hp1
      rw [hp1] at hfind
      rw [hmap, refChainSpec, ← hfind]
      rfl
    | none =>
      rw [hp1] at hfind
      obtain ⟨d, _, _, hres⟩ :=
        ((pass2_key g c0 hc0 g.outs (refPass1 g) p).2.2 hp1 hp).2 hfirst
      have hmap : refMap g p = some (c0, d) := by
        rw [refMap, refPass2]
        exact hres
      rw [hmap, refChainSpec, ← hfind]
      simp [hc0]
  refine ⟨hpart1, ?_⟩
  intro c hc
  constructor
  · rintro ⟨d, hmem⟩
    rw [alignedTriples_mem] at hmem
    obtain ⟨c', _, d', _, i, _, he, _, hne2⟩ := hmem
    have h1 : c = c' := congrArg Prod.fst he
    have h3 : p = i := congrArg (fun y => y.2.2) he
    rw [← hpart1]
    rw [h1, h3]
    exact hne2
  · intro hnotref
    obtain ⟨d, hd, hdi⟩ := hall c hc
    refine ⟨d, ?_⟩
    rw [alignedTriples_mem]
    exact ⟨c, hc, d, hd, p, hdi, rfl, hp, by rw [hpart1]; exact hnotref⟩

/-- Witness for C4 on the concrete group `gWit` and particle `4` (a direct
daughter of the top in neither chain, so the fallback applies). -/
theorem C4_witness :
    (refMap gWit 4).map Prod.fst = refChainSpec gWit 4 ∧
    (∀ c ∈ gWit.chains, ((∃ d, (c, d, 4) ∈ alignedTriples gWit) ↔ refChainSpec gWit 4 ≠ some c)) :=
  C4_reference_chain gWit 4 (by decide) (by decide) (by decide)
/-! ## Claim C2: the accumulated `r_matrix` of `cal_helicity_angle` -/

theorem allOuts_append (l1 l2 : List DecayE) :
    allOuts (l1 ++ l2) = allOuts l1 ++ allOuts l2 := by
  rw [allOuts, allOuts, allOuts, List.map_append, List.flatten_append]

theorem allOuts_cons (d : DecayE) (l : List DecayE) :
    allOuts (d :: l) = d.outs ++ allOuts l := by
  rw [allOuts, allOuts, List.map_cons, List.flatten_cons]

theorem allOuts_nil : allOuts [] = [] := rfl

theorem fold2_spec {V V3 R M : Type} (P : HelPrims V V3 R M) (data : ℕ → V) (core : ℕ)
    (zc xc : V3) :
    ∀ (os : List ℕ) (s : HelState V3 R M),
      s.setZ core = some zc → s.setX core = some xc → core ∉ os → os.Nodup →
      ((∀ q, q ∉ os → ((os.foldl (applyOut2 P data core) s).setX q = s.setX q ∧
          (os.foldl (applyOut2 P data core) s).setZ q = s.setZ q ∧
          (os.foldl (applyOut2 P data core) s).rMat q = s.rMat q ∧
          (os.foldl (applyOut2 P data core) s).angOf q = s.angOf q)) ∧
       (∀ j ∈ os,
          (os.foldl (applyOut2 P data core) s).setZ j =
            some (P.vect (P.restVector (data core) (data j))) ∧
          (os.foldl (applyOut2 P data core) s).setX j =
            some ((P.angleZxZGetx zc xc (P.vect (P.restVector (data core) (data j)))).2) ∧
          (os.foldl (applyOut2 P data core) s).angOf j =
            some ((P.angleZxZGetx zc xc (P.vect (P.restVector (data core) (data j)))).1) ∧
          (os.foldl (applyOut2 P data core) s).rMat j =
            some (withParent P (s.rMat core) (ownR P data core j zc xc))))
  | [], s, _, _, _, _ => ⟨fun _ _ => ⟨rfl, rfl, rfl, rfl⟩, fun _ h => absurd h (by simp)⟩
  | j0 :: os, s, hz, hx, hcn, hnd => by
    have hcj0 : core ≠ j0 := fun h => hcn (by rw [h]; exact List.mem_cons_self j0 os)
    have hcos : core ∉ os := fun h => hcn (List.mem_cons_of_mem j0 h)
    have hj0os : j0 ∉ os := (List.nodup_cons.mp hnd).1
    have hndos : os.Nodup := (List.nodup_cons.mp hnd).2
    have hs' : applyOut2 P data core s j0 =
        { setX := upd s.setX j0
            ((P.angleZxZGetx zc xc (P.vect (P.restVector (data core) (data j0)))).2),
          setZ := upd s.setZ j0 (P.vect (P.restVector (data core) (data j0))),
          rMat := upd s.rMat j0 (withParent P (s.rMat core) (ownR P data core j0 zc xc)),
          angOf := upd s.angOf j0
            ((P.angleZxZGetx zc xc (P.vect (P.restVector (data core) (data j0)))).1) } := by
      simp only [applyOut2, hz, hx]
      rfl
    have hs'z : (applyOut2 P data core s j0).setZ core = some zc := by
      rw [hs']
      show upd s.setZ j0 _ core = some zc
      rw [upd, if_neg hcj0]
      exact hz
    have hs'x : (applyOut2 P data core s j0).setX core = some xc := by
      rw [hs']
      show upd s.setX j0 _ core = some xc
      rw [upd, if_neg hcj0]
      exact hx
    have hs'r : (applyOut2 P data core s j0).rMat core = s.rMat core := by
      rw [hs']
      show upd s.rMat j0 _ core = s.rMat core
      rw [upd, if_neg hcj0]
    have hAx : ∀ q, q ≠ j0 → (applyOut2 P data core s j0).setX q = s.setX q := fun q hq => by
      rw [hs']
      show upd s.setX j0 _ q = s.setX q
      rw [upd, if_neg hq]
    have hAz : ∀ q, q ≠ j0 → (applyOut2 P data core s j0).setZ q = s.setZ q := fun q hq => by
      rw [hs']
      show upd s.setZ j0 _ q = s.setZ q
      rw [upd, if_neg hq]
    have hAr : ∀ q, q ≠ j0 → (applyOut2 P data core s j0).rMat q = s.rMat q := fun q hq => by
      rw [hs']
      show upd s.rMat j0 _ q = s.rMat q
      rw [upd, if_neg hq]
    have hAa : ∀ q, q ≠ j0 → (applyOut2 P data core s j0).angOf q = s.angOf q := fun q hq => by
      rw [hs']
      show upd s.angOf j0 _ q = s.angOf q
      rw [upd, if_neg hq]
    have hAzj : (applyOut2 P data core s j0).setZ j0 =
        some (P.vect (P.restVector (data core) (data j0))) := by
      rw [hs']
      show upd s.setZ j0 _ j0 = _
      rw [upd, if_pos rfl]
    have hAxj : (applyOut2 P data core s j0).setX j0 =
        some ((P.angleZxZGetx zc xc (P.vect (P.restVector (data core) (data j0)))).2) := by
      rw [hs']
      show upd s.setX j0 _ j0 = _
      rw [upd, if_pos rfl]
    have hAaj : (applyOut2 P data core s j0).angOf j0 =
        some ((P.angleZxZGetx zc xc (P.vect (P.restVector (data core) (data j0)))).1) := by
      rw [hs']
      show upd s.angOf j0 _ j0 = _
      rw [upd, if_pos rfl]
    have hArj : (applyOut2 P data core s j0).rMat j0 =
        some (withParent P (s.rMat core) (ownR P data core j0 zc xc)) := by
      rw [hs']
      show upd s.rMat j0 _ j0 = _
      rw [upd, if_pos rfl]
    have ih := fold2_spec P data core zc xc os (applyOut2 P data core s j0) hs'z hs'x hcos hndos
    rw [List.foldl_cons]
    constructor
    · intro q hq
      have hqj0 : q ≠ j0 := fun h => hq (by rw [h]; exact List.mem_cons_self j0 os)
      have hqos : q ∉ os := fun h => hq (List.mem_cons_of_mem j0 h)
      obtain ⟨e1, e2, e3, e4⟩ := ih.1 q hqos
      exact ⟨by rw [e1, hAx q hqj0], by rw [e2, hAz q hqj0],
        by rw [e3, hAr q hqj0], by rw [e4, hAa q hqj0]⟩
    · intro j hj
      rcases List.mem_cons.mp hj with he | hjos
      · subst he
        obtain ⟨e1, e2, e3, e4⟩ := ih.1 j hj0os
        exact ⟨by rw [e2, hAzj], by rw [e1, hAxj], by rw [e4, hAaj], by rw [e3, hArj]⟩
      · obtain ⟨e1, e2, e3, e4⟩ := ih.2 j hjos
        rw [hs'r] at e4
        exact ⟨e1, e2, e3, e4⟩

theorem fold3_spec {V V3 R M : Type} (P : HelPrims V V3 R M) (data : ℕ → V) (core : ℕ)
    (angL : AngT R) :
    ∀ (os : List ℕ) (s : HelState V3 R M), core ∉ os →
      ((∀ q, q ∉ os → (os.foldl (applyOut3 P data core angL) s).rMat q = s.rMat q) ∧
       ((os.foldl (applyOut3 P data core angL) s).setX = s.setX ∧
        (os.foldl (applyOut3 P data core angL) s).setZ = s.setZ ∧
        (os.foldl (applyOut3 P data core angL) s).angOf = s.angOf) ∧
       (∀ j ∈ os, (os.foldl (applyOut3 P data core angL) s).rMat j =
          some (withParent P (s.rMat core) (lastR P data core j angL))))
  | [], s, _ => ⟨fun _ _ => rfl, ⟨rfl, rfl, rfl⟩, fun _ h => absurd h (by simp)⟩
  | j0 :: os, s, hcn => by
    have hcj0 : core ≠ j0 := fun h => hcn (by rw [h]; exact List.mem_cons_self j0 os)
    have hcos : core ∉ os := fun h => hcn (List.mem_cons_of_mem j0 h)
    have hs' : applyOut3 P data core angL s j0 =
        { s with rMat := (upd s.rMat j0 (withParent P (s.rMat core) (lastR P data core j0 angL))) } := by
      rw [applyOut3]
      rfl
    have hs'r : (applyOut3 P data core angL s j0).rMat core = s.rMat core := by
      rw [hs']
      show upd s.rMat j0 _ core = s.rMat core
      rw [upd, if_neg hcj0]
    have ih := fold3_spec P data core angL os (applyOut3 P data core angL s j0) hcos
    rw [List.foldl_cons]
    refine ⟨?_, ?_, ?_⟩
    · intro q hq
      have hqj0 : q ≠ j0 := fun h => hq (by rw [h]; exact List.mem_cons_self j0 os)
      have hqos : q ∉ os := fun h => hq (List.mem_cons_of_mem j0 h)
      rw [ih.1 q hqos, hs']
      show upd s.rMat j0 _ q = s.rMat q
      rw [upd, if_neg hqj0]
    · obtain ⟨ex, ez, ea⟩ := ih.2.1
      rw [ex, ez, ea, hs']
      exact ⟨rfl, rfl, rfl⟩
    · intro j hj
      rcases List.mem_cons.mp hj with he | hjos
      · subst he
        by_cases hjo : j ∈ os
        · have := ih.2.2 j hjo
          rw [hs'r] at this
          rw [this]
        · rw [ih.1 j hjo, hs']
          show upd s.rMat j _ j = _
          rw [upd, if_pos rfl]
      · have := ih.2.2 j hjos
        rw [hs'r] at this
        rw [this]
theorem processDecay_spec {V V3 R M : Type} (P : HelPrims V V3 R M) (data : ℕ → V)
    (d : DecayE) (s : HelState V3 R M) (zc xc : V3)
    (hz : s.setZ d.core = some zc) (hx : s.setX d.core = some xc)
    (hcore : d.core ∉ d.outs) (hnd : d.outs.Nodup) :
    (∀ q, q ∉ d.outs → ((processDecay P data s d).setX q = s.setX q ∧
        (processDecay P data s d).setZ q = s.setZ q ∧
        (processDecay P data s d).rMat q = s.rMat q ∧
        (processDecay P data s d).angOf q = s.angOf q)) ∧
    (∀ j ∈ d.outs, ((processDecay P data s d).setX j).isSome = true ∧
        ((processDecay P data s d).setZ j).isSome = true ∧
        ((processDecay P data s d).rMat j).isSome = true) ∧
    RSpecAt P data (s.rMat d.core) d zc xc (processDecay P data s d).rMat := by
  have h2 := fold2_spec P data d.core zc xc d.outs s hz hx hcore hnd
  by_cases hlen : d.outs.length = 3
  · have hne : d.outs ≠ [] := by
      intro h
      rw [h] at hlen
      simp at hlen
    obtain ⟨jl, hjl⟩ : ∃ jl, d.outs.getLast? = some jl :=
      ⟨d.outs.getLast hne, List.getLast?_eq_getLast d.outs hne⟩
    have hjlmem : jl ∈ d.outs := by
      have hgm : d.outs.getLast hne ∈ d.outs := List.getLast_mem hne
      have : jl = d.outs.getLast hne := by
        have := List.getLast?_eq_getLast d.outs hne
        rw [hjl] at this
        exact Option.some.inj this
      rw [this]
      exact hgm
    have hang : (d.outs.foldl (applyOut2 P data d.core) s).angOf jl =
        some ((P.angleZxZGetx zc xc (P.vect (P.restVector (data d.core) (data jl)))).1) :=
      (h2.2 jl hjlmem).2.2.1
    have hpd : processDecay P data s d =
        d.outs.foldl
          (applyOut3 P data d.core
            ((P.angleZxZGetx zc xc (P.vect (P.restVector (data d.core) (data jl)))).1))
          (d.outs.foldl (applyOut2 P data d.core) s) := by
      simp only [processDecay, hjl, hang, if_pos hlen]
    have h3 := fold3_spec P data d.core
      ((P.angleZxZGetx zc xc (P.vect (P.restVector (data d.core) (data jl)))).1)
      d.outs (d.outs.foldl (applyOut2 P data d.core) s) hcore
    have hrc : (d.outs.foldl (applyOut2 P data d.core) s).rMat d.core = s.rMat d.core :=
      (h2.1 d.core hcore).2.2.1
    refine ⟨?_, ?_, ?_⟩
    · intro q hq
      rw [hpd]
      obtain ⟨e1, e2, e3, e4⟩ := h2.1 q hq
      refine ⟨?_, ?_, ?_, ?_⟩
      · rw [h3.2.1.1, e1]
      · rw [h3.2.1.2.1, e2]
      · rw [h3.1 q hq, e3]
      · rw [h3.2.1.2.2, e4]
    · intro j hj
      rw [hpd]
      obtain ⟨ez, ex, ea, er⟩ := h2.2 j hj
      refine ⟨?_, ?_, ?_⟩
      · rw [h3.2.1.1, ex]
        rfl
      · rw [h3.2.1.2.1, ez]
        rfl
      · have := h3.2.2 j hj
        rw [this]
        rfl
    · rw [RSpecAt, if_pos hlen]
      refine ⟨jl, hjl, ?_⟩
      intro j hj
      rw [hpd]
      have := h3.2.2 j hj
      rw [hrc] at this
      exact this
  · have hpd : processDecay P data s d = d.outs.foldl (applyOut2 P data d.core) s := by
      simp only [processDecay, if_neg hlen]
    refine ⟨?_, ?_, ?_⟩
    · intro q hq
      rw [hpd]
      exact h2.1 q hq
    · intro j hj
      rw [hpd]
      obtain ⟨ez, ex, ea, er⟩ := h2.2 j hj
      exact ⟨by rw [ex]; rfl, by rw [ez]; rfl, by rw [er]; rfl⟩
    · rw [RSpecAt, if_neg hlen]
      intro j hj
      rw [hpd]
      exact (h2.2 j hj).2.2.2
theorem RSpecAt_congr {V V3 R M : Type} (P : HelPrims V V3 R M) (data : ℕ → V)
    (rc : Option M) (d : DecayE) (zc xc : V3) (rm1 rm2 : ℕ → Option M)
    (h : ∀ j ∈ d.outs, rm1 j = rm2 j) :
    RSpecAt P data rc d zc xc rm1 → RSpecAt P data rc d zc xc rm2 := by
  rw [RSpecAt, RSpecAt]
  by_cases hlen : d.outs.length = 3
  · rw [if_pos hlen, if_pos hlen]
    rintro ⟨jl, hjl, hall⟩
    exact ⟨jl, hjl, fun j hj => by rw [← h j hj]; exact hall j hj⟩
  · rw [if_neg hlen, if_neg hlen]
    intro hall j hj
    rw [← h j hj]
    exact hall j hj

theorem mem_allOuts {j : ℕ} {d2 : DecayE} {l : List DecayE} (h1 : d2 ∈ l)
    (h2 : j ∈ d2.outs) : j ∈ allOuts l := by
  rw [allOuts]
  exact List.mem_flatten.mpr ⟨d2.outs, List.mem_map_of_mem DecayE.outs h1, h2⟩

theorem passOnce_inv {V V3 R M : Type} (P : HelPrims V V3 R M) (data : ℕ → V) (top : ℕ) :
    ∀ (ds processed : List DecayE) (s : HelState V3 R M) (acc : List DecayE),
      HelInv P data top processed s →
      topoOKB top (allOuts processed) ds = true →
      (allOuts (processed ++ ds)).Nodup →
      top ∉ allOuts (processed ++ ds) →
      ∃ s2, passOnce P data (s, acc) ds = (s2, acc) ∧
        HelInv P data top (processed ++ ds) s2
  | [], processed, s, acc, hinv, _, _, _ => ⟨s, rfl, by rw [List.append_nil]; exact hinv⟩
  | d :: ds, processed, s, acc, hinv, htopo, hnodup, htop => by
    obtain ⟨hX, hZ, hR, hC, hS⟩ := hinv
    rw [topoOKB, Bool.and_eq_true] at htopo
    have hcore_res : d.core = top ∨ d.core ∈ allOuts processed := of_decide_eq_true htopo.1
    have hsplit : allOuts (processed ++ d :: ds) =
        allOuts processed ++ (d.outs ++ allOuts ds) := by
      rw [allOuts_append, allOuts_cons]
    rw [hsplit] at hnodup htop
    have hnd1 := List.nodup_append.mp hnodup
    have hnd2 := List.nodup_append.mp hnd1.2.1
    have hdisj1 : (allOuts processed).Disjoint (d.outs ++ allOuts ds) := hnd1.2.2
    have houtnd : d.outs.Nodup := hnd2.1
    have htopout : top ∉ d.outs := by
      intro h
      exact htop (List.mem_append.mpr (Or.inr (List.mem_append.mpr (Or.inl h))))
    have hcoreout : d.core ∉ d.outs := by
      rcases hcore_res with h | h
      · rw [h]; exact htopout
      · intro hc
        exact hdisj1 h (List.mem_append.mpr (Or.inl hc))
    have hsome : (s.setX d.core).isSome = true := (hX d.core).mpr hcore_res
    obtain ⟨zc, hz⟩ := Option.isSome_iff_exists.mp ((hZ d.core).mpr hcore_res)
    obtain ⟨xc, hx⟩ := Option.isSome_iff_exists.mp hsome
    have hps := processDecay_spec P data d s zc xc hz hx hcoreout houtnd
    have hstep : passOnce P data (s, acc) (d :: ds) =
        passOnce P data (processDecay P data s d, acc) ds := by
      simp only [passOnce, List.foldl_cons, hsome, if_true]
    have hallcons : allOuts (processed ++ [d]) = allOuts processed ++ d.outs := by
      rw [allOuts_append, allOuts_cons, allOuts_nil, List.append_nil]
    have hinv1 : HelInv P data top (processed ++ [d]) (processDecay P data s d) := by
      refine ⟨?_, ?_, ?_, ?_, ?_⟩
      · intro q
        rw [hallcons]
        by_cases hq : q ∈ d.outs
        · exact ⟨fun _ => Or.inr (List.mem_append.mpr (Or.inr hq)),
            fun _ => (hps.2.1 q hq).1⟩
        · rw [(hps.1 q hq).1, hX q]
          constructor
          · rintro (h | h)
            · exact Or.inl h
            · exact Or.inr (List.mem_append.mpr (Or.inl h))
          · rintro (h | h)
            · exact Or.inl h
            · rcases List.mem_append.mp h with h | h
              · exact Or.inr h
              · exact absurd h hq
      · intro q
        rw [hallcons]
        by_cases hq : q ∈ d.outs
        · exact ⟨fun _ => Or.inr (List.mem_append.mpr (Or.inr hq)),
            fun _ => (hps.2.1 q hq).2.1⟩
        · rw [(hps.1 q hq).2.1, hZ q]
          constructor
          · rintro (h | h)
            · exact Or.inl h
            · exact Or.inr (List.mem_append.mpr (Or.inl h))
          · rintro (h | h)
            · exact Or.inl h
            · rcases List.mem_append.mp h with h | h
              · exact Or.inr h
              · exact absurd h hq
      · intro q
        rw [hallcons]
        by_cases hq : q ∈ d.outs
        · exact ⟨fun _ => List.mem_append.mpr (Or.inr hq), fun _ => (hps.2.1 q hq).2.2⟩
        · rw [(hps.1 q hq).2.2.1, hR q]
          constructor
          · intro h
            exact List.mem_append.mpr (Or.inl h)
          · intro h
            rcases List.mem_append.mp h with h | h
            · exact h
            · exact absurd h hq
      · intro d2 hd2
        rcases List.mem_append.mp hd2 with h | h
        · rcases hC d2 h with hh | hh
          · exact Or.inl hh
          · exact Or.inr (by rw [hallcons]; exact List.mem_append.mpr (Or.inl hh))
        · have hd2d : d2 = d := by simpa using h
          subst hd2d
          rcases hcore_res with hh | hh
          · exact Or.inl hh
          · exact Or.inr (by rw [hallcons]; exact List.mem_append.mpr (Or.inl hh))
      · intro d2 hd2
        rcases List.mem_append.mp hd2 with h | h
        · obtain ⟨zc2, xc2, hz2, hx2, hrs⟩ := hS d2 h
          have hc2 : d2.core ∉ d.outs := by
            rcases hC d2 h with hh | hh
            · rw [hh]; exact htopout
            · intro hc
              exact hdisj1 hh (List.mem_append.mpr (Or.inl hc))
          obtain ⟨e1, e2, e3, e4⟩ := hps.1 d2.core hc2
          refine ⟨zc2, xc2, by rw [e2]; exact hz2, by rw [e1]; exact hx2, ?_⟩
          rw [e3]
          apply RSpecAt_congr P data _ d2 zc2 xc2 s.rMat _ _ hrs
          intro j hj
          have hjout : j ∉ d.outs := by
            intro hc
            exact hdisj1 (mem_allOuts h hj) (List.mem_append.mpr (Or.inl hc))
          exact ((hps.1 j hjout).2.2.1).symm
        · have hd2d : d2 = d := by simpa using h
          subst hd2d
          refine ⟨zc, xc, ?_, ?_, ?_⟩
          · rw [(hps.1 d2.core hcoreout).2.1]
            exact hz
          · rw [(hps.1 d2.core hcoreout).1]
            exact hx
          · have hthis := hps.2.2
            rw [← (hps.1 d2.core hcoreout).2.2.1] at hthis
            exact hthis
    have htopo2 : topoOKB top (allOuts (processed ++ [d])) ds = true := by
      rw [hallcons]
      exact htopo.2
    have hnodup2 : (allOuts ((processed ++ [d]) ++ ds)).Nodup := by
      rw [allOuts_append, hallcons, List.append_assoc]
      rw [allOuts_append, allOuts_cons] at hsplit
      exact hnodup
    have htop2 : top ∉ allOuts ((processed ++ [d]) ++ ds) := by
      rw [allOuts_append, hallcons, List.append_assoc]
      exact htop
    obtain ⟨s2, heq, hinv2⟩ := passOnce_inv P data top ds (processed ++ [d])
      (processDecay P data s d) acc hinv1 htopo2 hnodup2 htop2
    refine ⟨s2, ?_, ?_⟩
    · rw [hstep, heq]
    · have hre : (processed ++ [d]) ++ ds = processed ++ d :: ds := by
        rw [List.append_assoc, List.singleton_append]
      rw [hre] at hinv2
      exact hinv2

theorem runHel_empty {V V3 R M : Type} (P : HelPrims V V3 R M) (data : ℕ → V) :
    ∀ (n : ℕ) (s : HelState V3 R M), runHel P data n (s, []) = s
  | 0, _ => rfl
  | _ + 1, _ => rfl
/-- C2 (amended): for every well-formed decay chain (nodup outs, top not an
out, bottom-up processable order) the `r_matrix` stored by
`cal_helicity_angle` for each outgoing particle is
`Boost_z(p_rest) * Rotation_y(beta) * Rotation_z(alpha)` left-multiplied
onto the parent's accumulated `r_matrix` (absent exactly at the top), where
for vertices that are not three-body `beta`/`alpha` are the particle's OWN
helicity angles, but for three-body vertices they are the two-body angles
of the LAST outgoing particle (the Python loop's leftover `ang` variable),
for all three daughters alike. -/
theorem C2_amended_r_matrix {V V3 R M : Type} (P : HelPrims V V3 R M) (data : ℕ → V)
    (chain : List DecayE) (top : ℕ) (baseZ baseX : V3)
    (hnd : (allOuts chain).Nodup) (htop : top ∉ allOuts chain)
    (htopo : topoOKB top [] chain = true) :
    ∀ d ∈ chain, ∃ zc xc,
      (cal_helicity_angle P data chain top baseZ baseX).setZ d.core = some zc ∧
      (cal_helicity_angle P data chain top baseZ baseX).setX d.core = some xc ∧
      ((cal_helicity_angle P data chain top baseZ baseX).rMat d.core = none ↔ d.core = top) ∧
      RSpecAt P data ((cal_helicity_angle P data chain top baseZ baseX).rMat d.core) d zc xc
        (cal_helicity_angle P data chain top baseZ baseX).rMat := by
  have hinv0 : HelInv P data top [] (initHelState baseZ baseX top) := by
    refine ⟨?_, ?_, ?_, ?_, ?_⟩
    · intro q
      rw [allOuts_nil]
      show (upd (fun _ => none) top baseX q).isSome = true ↔ _
      rw [upd]
      by_cases hq : q = top
      · simp [hq]
      · simp [hq]
    · intro q
      rw [allOuts_nil]
      show (upd (fun _ => none) top baseZ q).isSome = true ↔ _
      rw [upd]
      by_cases hq : q = top
      · simp [hq]
      · simp [hq]
    · intro q
      rw [allOuts_nil]
      simp [initHelState]
    · intro d hd
      simp at hd
    · intro d hd
      simp at hd
  obtain ⟨s2, heq, hinv2⟩ := passOnce_inv P data top chain [] (initHelState baseZ baseX top) []
    hinv0 (by rw [allOuts_nil]; exact htopo) (by rw [List.nil_append]; exact hnd)
    (by rw [List.nil_append]; exact htop)
  have hcal : cal_helicity_angle P data chain top baseZ baseX = s2 := by
    rw [cal_helicity_angle]
    cases chain with
    | nil =>
      have h0 : (initHelState baseZ baseX top, ([] : List DecayE)) =
          (s2, ([] : List DecayE)) := heq
      have h1 : initHelState baseZ baseX top = s2 := congrArg Prod.fst h0
      rw [← h1]
      exact runHel_empty P data _ _
    | cons c cs =>
      rw [runHel]
      rw [if_neg (by simp)]
      rw [heq]
      exact runHel_empty P data _ _
  rw [hcal]
  have hchain : HelInv P data top chain s2 := by
    rw [List.nil_append] at hinv2
    exact hinv2
  obtain ⟨hX2, hZ2, hR2, hC2, hS2⟩ := hchain
  intro d hd
  obtain ⟨zc, xc, h1, h2, h3⟩ := hS2 d hd
  refine ⟨zc, xc, h1, h2, ?_, h3⟩
  constructor
  · intro hnone
    rcases hC2 d hd with h | h
    · exact h
    · exfalso
      have hs := (hR2 d.core).mpr h
      rw [hnone] at hs
      simp at hs
  · intro htopc
    have hns : ¬(s2.rMat d.core).isSome = true := by
      rw [hR2, htopc]
      exact htop
    cases hrm : s2.rMat d.core with
    | none => rfl
    | some v =>
      rw [hrm] at hns
      simp at hns

/-- C2 counterexample: a single three-body vertex `0 -> 1 2 3` under a
concrete instantiation of the primitives: the stored `r_matrix` of the
FIRST outgoing particle is built from the THIRD (last) particle's two-body
angles, not from its own, so the claim's "three-body vertices alike"
formula fails. -/
theorem C2_counterexample :
    (cal_helicity_angle PCex dataCex chainCex3 0 0 0).rMat 1 ≠
      some (ownR PCex dataCex 0 1 0 0) := by decide

/-- Witness for C2 at the vertex `1 -> 3 4` of the two-level two-body chain
`0 -> 1 2`, `1 -> 3 4`. -/
theorem C2_witness :
    ∃ zc xc,
      (cal_helicity_angle PCex dataCex chainCex2 0 0 0).setZ 1 = some zc ∧
      (cal_helicity_angle PCex dataCex chainCex2 0 0 0).setX 1 = some xc ∧
      ((cal_helicity_angle PCex dataCex chainCex2 0 0 0).rMat 1 = none ↔ 1 = 0) ∧
      RSpecAt PCex dataCex ((cal_helicity_angle PCex dataCex chainCex2 0 0 0).rMat 1)
        ⟨1, [3, 4]⟩ zc xc (cal_helicity_angle PCex dataCex chainCex2 0 0 0).rMat :=
  C2_amended_r_matrix PCex dataCex chainCex2 0 0 0 (by decide) (by decide) (by decide)
    ⟨1, [3, 4]⟩ (by decide)

/-! ## Claim C5: unitarity of the Wigner-D engine

The proof realises the `(2j+1)`-dimensional representation as the action of
a 2x2 substitution on homogeneous binary forms of degree `j`
(`Nmat`/`Nexpl`), links the small-d matrix to it through the `DeltaW`
normalisation, and derives row orthogonality from multiplicativity of the
induced action together with the Pythagorean identity; the complex phases
cancel against their conjugates. -/

section WignerUnitarity

open MvPolynomial

/-- The two binary-form index slots of `monIdx` recover the exponents. -/
theorem pairIdx_eq (A B A' B' : ℕ) :
    (Finsupp.single (0 : Fin 2) A + Finsupp.single 1 B =
        Finsupp.single 0 A' + Finsupp.single 1 B') ↔ A = A' ∧ B = B' := by
  constructor
  · intro h
    have h0 := DFunLike.congr_fun h 0
    have h1 := DFunLike.congr_fun h 1
    simp only [Finsupp.add_apply, Finsupp.single_eq_same,
      Finsupp.single_eq_of_ne (show (1 : Fin 2) ≠ 0 by decide),
      Finsupp.single_eq_of_ne (show (0 : Fin 2) ≠ 1 by decide),
      add_zero, zero_add] at h0 h1
    exact ⟨h0, h1⟩
  · rintro ⟨rfl, rfl⟩
    rfl

/-- A sum of two exponent pairs compared with a `monIdx` target. -/
theorem pairIdx_add_eq (j a u x w y : ℕ) :
    (Finsupp.single (0 : Fin 2) u + Finsupp.single 1 x) +
        (Finsupp.single 0 w + Finsupp.single 1 y) = monIdx j a ↔
      u + w = a ∧ x + y = j - a := by
  rw [show (Finsupp.single (0 : Fin 2) u + Finsupp.single 1 x) +
        (Finsupp.single 0 w + Finsupp.single 1 y) =
        Finsupp.single 0 (u + w) + Finsupp.single 1 (x + y) by
      rw [Finsupp.single_add, Finsupp.single_add]
      exact add_add_add_comm _ _ _ _, monIdx]
  exact pairIdx_eq _ _ _ _

theorem monIdx_eq_iff (j a b : ℕ) : monIdx j a = monIdx j b ↔ a = b := by
  rw [monIdx, monIdx, pairIdx_eq]
  constructor
  · exact fun h => h.1
  · rintro rfl
    exact ⟨rfl, rfl⟩

theorem basisMon_eq_monomial (j i : ℕ) : basisMon j i = monomial (monIdx j i) 1 := by
  rw [basisMon, monIdx, X_pow_eq_monomial, X_pow_eq_monomial, monomial_mul, one_mul]

theorem bind₁_basisMon (v : Fin 2 → MvPolynomial (Fin 2) ℝ) (j b : ℕ) :
    bind₁ v (basisMon j b) = v 0 ^ b * v 1 ^ (j - b) := by
  rw [basisMon, map_mul, map_pow, map_pow, bind₁_X_right, bind₁_X_right]

theorem bind₁_linear (v : Fin 2 → MvPolynomial (Fin 2) ℝ) (p r : ℝ) :
    bind₁ v (C p * X 0 + C r * X 1) = C p * v 0 + C r * v 1 := by
  rw [map_add, map_mul, map_mul, bind₁_X_right, bind₁_X_right, algHom_C, algHom_C,
    algebraMap_eq]

theorem sub2_zero (p q r t : ℝ) : sub2 p q r t 0 = C p * X 0 + C r * X 1 := rfl

theorem sub2_one (p q r t : ℝ) : sub2 p q r t 1 = C q * X 0 + C t * X 1 := rfl

theorem sub2_isHomog (p q r t : ℝ) (i : Fin 2) : (sub2 p q r t i).IsHomogeneous 1 := by
  have h : ∀ x y : ℝ, (C x * X (0 : Fin 2) + C y * X 1 :
      MvPolynomial (Fin 2) ℝ).IsHomogeneous 1 := by
    intro x y
    have h0 : (C x * X (0 : Fin 2) : MvPolynomial (Fin 2) ℝ).IsHomogeneous 1 := by
      have := (isHomogeneous_C (Fin 2) x).mul (isHomogeneous_X ℝ (0 : Fin 2))
      rwa [zero_add] at this
    have h1 : (C y * X (1 : Fin 2) : MvPolynomial (Fin 2) ℝ).IsHomogeneous 1 := by
      have := (isHomogeneous_C (Fin 2) y).mul (isHomogeneous_X ℝ (1 : Fin 2))
      rwa [zero_add] at this
    exact h0.add h1
  fin_cases i
  · exact h p r
  · exact h q t

theorem bind₁_sub2_homog (p q r t : ℝ) (j b : ℕ) (hb : b ≤ j) :
    (bind₁ (sub2 p q r t) (basisMon j b)).IsHomogeneous j := by
  rw [bind₁_basisMon]
  have h := ((sub2_isHomog p q r t 0).pow b).mul ((sub2_isHomog p q r t 1).pow (j - b))
  rwa [show 1 * b + 1 * (j - b) = j by omega] at h

theorem degree_fin2 (m : Fin 2 →₀ ℕ) : m.degree = m 0 + m 1 := by
  rw [Finsupp.degree]
  rw [show ∑ i ∈ m.support, m i = ∑ i : Fin 2, m i from
    Finset.sum_subset (Finset.subset_univ _) (fun x _ hx => Finsupp.not_mem_support_iff.mp hx)]
  rw [Fin.sum_univ_two]

theorem monIdx_apply0 (j i : ℕ) : monIdx j i 0 = i := by
  rw [monIdx]
  simp only [Finsupp.add_apply, Finsupp.single_eq_same,
    Finsupp.single_eq_of_ne (show (1 : Fin 2) ≠ 0 by decide), add_zero]

theorem monIdx_apply1 (j i : ℕ) : monIdx j i 1 = j - i := by
  rw [monIdx]
  simp only [Finsupp.add_apply, Finsupp.single_eq_same,
    Finsupp.single_eq_of_ne (show (0 : Fin 2) ≠ 1 by decide), zero_add]

/-- A homogeneous binary form of degree `j` is the sum of its `monIdx`
coefficients times the basis monomials. -/
theorem homogDecomp (P : MvPolynomial (Fin 2) ℝ) (j : ℕ) (hP : P.IsHomogeneous j) :
    P = ∑ i ∈ Finset.range (j + 1), C (coeff (monIdx j i) P) * basisMon j i := by
  apply MvPolynomial.ext
  intro m
  rw [coeff_sum]
  have hterm : ∀ i, coeff m (C (coeff (monIdx j i) P) * basisMon j i) =
      coeff (monIdx j i) P * (if monIdx j i = m then 1 else 0) := by
    intro i
    rw [coeff_C_mul, basisMon_eq_monomial, coeff_monomial]
  by_cases hm : m 0 + m 1 = j
  · have hm0 : m 0 ≤ j := by omega
    have hmon : monIdx j (m 0) = m := by
      have hx0 : monIdx j (m 0) 0 = m 0 := by rw [monIdx_apply0]
      have hx1 : monIdx j (m 0) 1 = m 1 := by
        rw [monIdx_apply1]
        omega
      apply Finsupp.ext
      intro x
      fin_cases x
      · exact hx0
      · exact hx1
    rw [Finset.sum_congr rfl (fun i _ => hterm i)]
    rw [Finset.sum_eq_single (m 0)]
    · rw [if_pos hmon, mul_one, hmon]
    · intro i _ hne
      rw [if_neg, mul_zero]
      intro he
      exact hne (by rw [← monIdx_apply0 j i, he])
    · intro habs
      exact absurd (Finset.mem_range.mpr (by omega)) habs
  · have hz : coeff m P = 0 := by
      apply hP.coeff_eq_zero
      rw [degree_fin2]
      exact hm
    rw [hz, Finset.sum_congr rfl (fun i _ => hterm i)]
    apply (Finset.sum_eq_zero ?_).symm
    intro i hi
    rw [if_neg, mul_zero]
    intro he
    apply hm
    rw [← he, monIdx_apply0, monIdx_apply1]
    have : i ≤ j := by
      have := Finset.mem_range.mp hi
      omega
    omega

/-- Multiplicativity of the induced degree-`j` matrix coefficients. -/
theorem coeff_comp (j a b : ℕ) (v w : Fin 2 → MvPolynomial (Fin 2) ℝ)
    (hw : (bind₁ w (basisMon j b)).IsHomogeneous j) :
    coeff (monIdx j a) (bind₁ v (bind₁ w (basisMon j b))) =
      ∑ k ∈ Finset.range (j + 1),
        coeff (monIdx j a) (bind₁ v (basisMon j k)) *
          coeff (monIdx j k) (bind₁ w (basisMon j b)) := by
  conv_lhs => rw [homogDecomp _ j hw]
  rw [map_sum, coeff_sum]
  apply Finset.sum_congr rfl
  intro k _
  rw [map_mul, algHom_C, algebraMap_eq, coeff_C_mul]
  ring

/-- The composed substitution of a rotation and its inverse is the identity
substitution. -/
theorem rot_comp (c s : ℝ) (h : s ^ 2 + c ^ 2 = 1) :
    (fun i => bind₁ (sub2 c (-s) s c) (sub2 c s (-s) c i)) = sub2 1 0 0 1 := by
  funext i
  fin_cases i
  · show bind₁ (sub2 c (-s) s c) (C c * X 0 + C (-s) * X 1) = C 1 * X 0 + C 0 * X 1
    rw [bind₁_linear, sub2_zero, sub2_one]
    apply MvPolynomial.ext
    intro m
    simp only [coeff_add, coeff_C_mul, coeff_X']
    split_ifs <;> first | ring1 | linear_combination h
  · show bind₁ (sub2 c (-s) s c) (C s * X 0 + C c * X 1) = C 0 * X 0 + C 1 * X 1
    rw [bind₁_linear, sub2_zero, sub2_one]
    apply MvPolynomial.ext
    intro m
    simp only [coeff_add, coeff_C_mul, coeff_X']
    split_ifs <;> first | ring1 | linear_combination h

/-- The identity substitution induces the identity matrix. -/
theorem coeff_id_sub (j a b : ℕ) :
    coeff (monIdx j a) (bind₁ (sub2 1 0 0 1) (basisMon j b)) =
      if a = b then 1 else 0 := by
  have hsub : bind₁ (sub2 1 0 0 1) (basisMon j b) = basisMon j b := by
    rw [bind₁_basisMon, sub2_zero, sub2_one]
    simp only [map_one, map_zero, one_mul, zero_mul, add_zero, zero_add]
    rw [basisMon]
  rw [hsub, basisMon_eq_monomial, coeff_monomial]
  by_cases hab : a = b
  · rw [if_pos ((monIdx_eq_iff j b a).mpr hab.symm), if_pos hab]
  · rw [if_neg, if_neg hab]
    intro he
    exact hab ((monIdx_eq_iff j b a).mp he).symm

/-- Expansion of a power of a two-variable linear form into monomials. -/
theorem pow_linear (p r : ℝ) (x y : Fin 2) (n : ℕ) :
    (C p * X x + C r * X y : MvPolynomial (Fin 2) ℝ) ^ n =
      ∑ u ∈ Finset.range (n + 1),
        monomial (Finsupp.single x u + Finsupp.single y (n - u))
          ((n.choose u : ℝ) * (p ^ u * r ^ (n - u))) := by
  rw [add_pow]
  apply Finset.sum_congr rfl
  intro u _
  rw [mul_pow, mul_pow, ← map_pow C p u, ← map_pow C r (n - u), X_pow_eq_monomial,
    X_pow_eq_monomial, C_mul_monomial, C_mul_monomial, mul_one, mul_one, monomial_mul,
    ← map_natCast (C : ℝ →+* MvPolynomial (Fin 2) ℝ) (n.choose u), mul_comm,
    C_mul_monomial]

/-- The induced matrix coefficient as an explicit double-binomial sum. -/
theorem Nmat_eq_Nexpl (j : ℕ) (p q r t : ℝ) (a b : ℕ) (ha : a ≤ j) (hb : b ≤ j) :
    Nmat j p q r t a b = Nexpl j p q r t a b := by
  have key : Nmat j p q r t a b =
      ∑ u ∈ Finset.range (b + 1),
        if u ≤ b ∧ u ≤ a ∧ a + b ≤ j + u then
          (b.choose u : ℝ) * ((j - b).choose (a - u) : ℝ) *
            (p ^ u * r ^ (b - u) * (q ^ (a - u) * t ^ (j - b - (a - u))))
        else 0 := by
    rw [Nmat, bind₁_basisMon, sub2_zero, sub2_one, pow_linear, pow_linear,
      Finset.sum_mul_sum, coeff_sum]
    apply Finset.sum_congr rfl
    intro u hu
    have hu' : u ≤ b := by
      have := Finset.mem_range.mp hu
      omega
    rw [coeff_sum]
    simp only [monomial_mul, coeff_monomial]
    rw [Finset.sum_congr rfl (fun w (_ : w ∈ Finset.range (j - b + 1)) =>
      if_congr (pairIdx_add_eq j a u (b - u) w (j - b - w)) rfl rfl)]
    by_cases hg : u ≤ a ∧ a + b ≤ j + u
    · obtain ⟨hua, hab⟩ := hg
      rw [if_pos ⟨hu', hua, hab⟩]
      rw [Finset.sum_eq_single (a - u)]
      · rw [if_pos ⟨by omega, by omega⟩]
        ring
      · intro w _ hne
        rw [if_neg]
        rintro ⟨hw1, -⟩
        exact hne (by omega)
      · intro hnotin
        rw [if_neg]
        rintro ⟨hw1, hw2⟩
        apply hnotin
        rw [Finset.mem_range]
        omega
    · rw [if_neg (by tauto)]
      apply Finset.sum_eq_zero
      intro w hw
      have hwb : w ≤ j - b := by
        have := Finset.mem_range.mp hw
        omega
      rw [if_neg]
      rintro ⟨hw1, -⟩
      exact hg ⟨by omega, by omega⟩
  rw [key, Nexpl]
  apply Finset.sum_subset (Finset.range_subset.mpr (by omega))
  intro x _ hnx
  rw [if_neg]
  rintro ⟨hxb, -⟩
  exact hnx (Finset.mem_range.mpr (by omega))

end WignerUnitarity

section WignerUnitarity2

open MvPolynomial

theorem small_d_weight_eq (j l a b : ℕ) :
    small_d_weight j l a b =
      ∑ kk ∈ Finset.range (j + 1),
        if (l : ℤ) = 2 * kk + a - b ∧ (b : ℤ) - a ≤ kk ∧ (kk : ℤ) ≤ (j : ℤ) - a ∧ kk ≤ b then
          wTerm j a b kk
        else 0 := by
  rw [small_d_weight]
  apply Finset.sum_congr rfl
  intro kk _
  rw [wTerm]

theorem DeltaW_pos (j x : ℕ) : 0 < DeltaW j x := by
  rw [DeltaW]
  apply Real.sqrt_pos.mpr
  exact_mod_cast Nat.mul_pos x.factorial_pos (j - x).factorial_pos

/-- Row-normalised symmetry between a rotation substitution and its inverse. -/
theorem Nexpl_symm (j a b : ℕ) (c s : ℝ) (ha : a ≤ j) (hb : b ≤ j) :
    ((a.factorial * (j - a).factorial : ℕ) : ℝ) * Nexpl j c s (-s) c a b =
      ((b.factorial * (j - b).factorial : ℕ) : ℝ) * Nexpl j c (-s) s c b a := by
  rw [Nexpl, Nexpl, Finset.mul_sum, Finset.mul_sum]
  apply Finset.sum_congr rfl
  intro u _
  rw [mul_ite, mul_zero, mul_ite, mul_zero]
  by_cases hg : u ≤ b ∧ u ≤ a ∧ a + b ≤ j + u
  · obtain ⟨hub, hua, hab⟩ := hg
    rw [if_pos ⟨hub, hua, hab⟩, if_pos ⟨hua, hub, by omega⟩]
    have e5 : j - a - (b - u) = j - b - (a - u) := by omega
    rw [e5]
    have hc1 : ((b.choose u : ℕ) : ℝ) * u.factorial * (b - u).factorial = b.factorial := by
      exact_mod_cast Nat.choose_mul_factorial_mul_factorial hub
    have hc2 : (((j - b).choose (a - u) : ℕ) : ℝ) * (a - u).factorial *
        (j - b - (a - u)).factorial = (j - b).factorial := by
      exact_mod_cast Nat.choose_mul_factorial_mul_factorial (show a - u ≤ j - b by omega)
    have hc3 : ((a.choose u : ℕ) : ℝ) * u.factorial * (a - u).factorial = a.factorial := by
      exact_mod_cast Nat.choose_mul_factorial_mul_factorial hua
    have hc4 : (((j - a).choose (b - u) : ℕ) : ℝ) * (b - u).factorial *
        (j - b - (a - u)).factorial = (j - a).factorial := by
      rw [← e5]
      exact_mod_cast Nat.choose_mul_factorial_mul_factorial (show b - u ≤ j - a by omega)
    have hD : ((u.factorial : ℝ) * (a - u).factorial *
        ((b - u).factorial * (j - b - (a - u)).factorial)) ≠ 0 := by
      refine mul_ne_zero (mul_ne_zero ?_ ?_) (mul_ne_zero ?_ ?_) <;>
        exact_mod_cast Nat.factorial_ne_zero _
    have hcoef : ((a.factorial * (j - a).factorial : ℕ) : ℝ) *
        ((b.choose u : ℝ) * ((j - b).choose (a - u) : ℝ)) =
        ((b.factorial * (j - b).factorial : ℕ) : ℝ) *
          ((a.choose u : ℝ) * ((j - a).choose (b - u) : ℝ)) := by
      apply mul_right_cancel₀ hD
      push_cast
      linear_combination
        ((a.factorial : ℝ) * (j - a).factorial * (((j - b).choose (a - u) : ℝ) *
          (a - u).factorial * (j - b - (a - u)).factorial)) * hc1 +
        ((a.factorial : ℝ) * (j - a).factorial * (b.factorial : ℝ)) * hc2 -
        ((b.factorial : ℝ) * (j - b).factorial * (((j - a).choose (b - u) : ℝ) *
          (b - u).factorial * (j - b - (a - u)).factorial)) * hc3 -
        ((b.factorial : ℝ) * (j - b).factorial * (a.factorial : ℝ)) * hc4
    linear_combination
      (c ^ u * (-s) ^ (b - u) * (s ^ (a - u) * c ^ (j - b - (a - u)))) * hcoef
  · have hgR : ¬(u ≤ a ∧ u ≤ b ∧ b + a ≤ j + u) := by
      rintro ⟨h1', h2', h3'⟩
      exact hg ⟨h2', h1', by omega⟩
    rw [if_neg hg, if_neg hgR]

end WignerUnitarity2

section WignerUnitarity3

open MvPolynomial

/-- Pointwise identity between the reflected weight-table term and the
normalised binomial term. -/
theorem smallD_term_eq (s c : ℝ) (j a b u : ℕ) (hb : b ≤ j) (hub : u ≤ b) :
    dTermL s c j a b (b - u) =
      DeltaW j a / DeltaW j b *
        (if u ≤ b ∧ u ≤ a ∧ a + b ≤ j + u then
          (b.choose u : ℝ) * ((j - b).choose (a - u) : ℝ) *
            (c ^ u * s ^ (b - u) * ((-s) ^ (a - u) * c ^ (j - b - (a - u))))
        else 0) := by
  rw [dTermL]
  by_cases hg : u ≤ a ∧ a + b ≤ j + u
  · obtain ⟨hua, hab⟩ := hg
    rw [if_pos (show (b : ℤ) - a ≤ ((b - u : ℕ) : ℤ) ∧ ((b - u : ℕ) : ℤ) ≤ (j : ℤ) - a ∧
        b - u ≤ b by refine ⟨?_, ?_, ?_⟩ <;> omega),
      if_pos ⟨hub, hua, hab⟩]
    have e1 : 2 * (b - u) + a - b = (b - u) + (a - u) := by omega
    have e2 : j - (2 * (b - u) + a - b) = u + (j - b - (a - u)) := by omega
    rw [e2, e1, wTerm]
    have e3 : b - (b - u) = u := by omega
    have e4 : b - u + a - b = a - u := by omega
    have e5 : j - a - (b - u) = j - b - (a - u) := by omega
    rw [e3, e4, e5]
    have e6 : b - u + a + b = a - u + 2 * b := by omega
    rw [e6, pow_add ((-1 : ℝ)) (a - u) (2 * b), pow_mul, neg_one_sq, one_pow, mul_one]
    rw [DeltaW, DeltaW, neg_pow s (a - u)]
    have hsplit : Real.sqrt
        ((a.factorial * (j - a).factorial * (b.factorial * (j - b).factorial) : ℕ)) =
        Real.sqrt ((a.factorial * (j - a).factorial : ℕ)) *
          Real.sqrt ((b.factorial * (j - b).factorial : ℕ)) := by
      rw [← Real.sqrt_mul (by positivity : (0 : ℝ) ≤ ((a.factorial * (j - a).factorial : ℕ) : ℝ))]
      congr 1
      push_cast
      ring
    rw [hsplit]
    have hch1 : ((b.choose u : ℕ) : ℝ) * u.factorial * (b - u).factorial = b.factorial := by
      exact_mod_cast Nat.choose_mul_factorial_mul_factorial hub
    have hch2 : (((j - b).choose (a - u) : ℕ) : ℝ) * (a - u).factorial *
        (j - b - (a - u)).factorial = (j - b).factorial := by
      exact_mod_cast Nat.choose_mul_factorial_mul_factorial (show a - u ≤ j - b by omega)
    have hsbB : Real.sqrt ((b.factorial * (j - b).factorial : ℕ)) *
        Real.sqrt ((b.factorial * (j - b).factorial : ℕ)) =
        ((b.factorial * (j - b).factorial : ℕ) : ℝ) := Real.mul_self_sqrt (by positivity)
    have hsbne : Real.sqrt ((b.factorial * (j - b).factorial : ℕ)) ≠ 0 := by
      refine ne_of_gt (Real.sqrt_pos.mpr ?_)
      exact_mod_cast Nat.mul_pos b.factorial_pos (j - b).factorial_pos
    have hKcast : (((j - b - (a - u)).factorial * u.factorial *
        ((a - u).factorial * (b - u).factorial) : ℕ) : ℝ) =
        ((j - b - (a - u)).factorial : ℝ) * (u.factorial : ℝ) *
          (((a - u).factorial : ℝ) * ((b - u).factorial : ℝ)) := by
      push_cast
      ring
    rw [hKcast]
    have hKne : ((j - b - (a - u)).factorial : ℝ) * (u.factorial : ℝ) *
        (((a - u).factorial : ℝ) * ((b - u).factorial : ℝ)) ≠ 0 := by
      refine mul_ne_zero (mul_ne_zero ?_ ?_) (mul_ne_zero ?_ ?_) <;>
        exact_mod_cast Nat.factorial_ne_zero _
    have hBden : (b.choose u : ℝ) * ((j - b).choose (a - u) : ℝ) *
        (((j - b - (a - u)).factorial : ℝ) * (u.factorial : ℝ) *
          (((a - u).factorial : ℝ) * ((b - u).factorial : ℝ))) =
        Real.sqrt ((b.factorial * (j - b).factorial : ℕ)) *
          Real.sqrt ((b.factorial * (j - b).factorial : ℕ)) := by
      rw [hsbB]
      push_cast
      linear_combination
        (((j - b).choose (a - u) : ℝ) * (a - u).factorial *
          (j - b - (a - u)).factorial) * hch1 + (b.factorial : ℝ) * hch2
    have hKey : Real.sqrt ((a.factorial * (j - a).factorial : ℕ)) *
        Real.sqrt ((b.factorial * (j - b).factorial : ℕ)) /
          (((j - b - (a - u)).factorial : ℝ) * (u.factorial : ℝ) *
            (((a - u).factorial : ℝ) * ((b - u).factorial : ℝ))) =
        Real.sqrt ((a.factorial * (j - a).factorial : ℕ)) /
          Real.sqrt ((b.factorial * (j - b).factorial : ℕ)) *
            ((b.choose u : ℝ) * ((j - b).choose (a - u) : ℝ)) := by
      rw [div_mul_eq_mul_div, div_eq_div_iff hKne hsbne]
      linear_combination (-Real.sqrt ((a.factorial * (j - a).factorial : ℕ))) * hBden
    rw [pow_add s (b - u) (a - u), pow_add c u (j - b - (a - u))]
    linear_combination
      (s ^ (b - u) * s ^ (a - u) * (c ^ u * c ^ (j - b - (a - u))) *
        (-1 : ℝ) ^ (a - u)) * hKey
  · have hgL : ¬((b : ℤ) - a ≤ ((b - u : ℕ) : ℤ) ∧ ((b - u : ℕ) : ℤ) ≤ (j : ℤ) - a ∧
        b - u ≤ b) := by
      rintro ⟨hg1, hg2, -⟩
      exact hg ⟨by omega, by omega⟩
    have hgR : ¬(u ≤ b ∧ u ≤ a ∧ a + b ≤ j + u) := by
      rintro ⟨-, h2', h3'⟩
      exact hg ⟨h2', h3'⟩
    rw [if_neg hgL, if_neg hgR, mul_zero]

end WignerUnitarity3

section WignerUnitarity4

open MvPolynomial

/-- The small-d matrix is the `DeltaW`-conjugated induced matrix of the
half-angle rotation substitution. -/
theorem small_d_eq (beta : ℝ) (j a b : ℕ) (hb : b ≤ j) :
    small_d_matrix beta j a b =
      DeltaW j a / DeltaW j b *
        Nexpl j (Real.cos (beta / 2)) (-Real.sin (beta / 2)) (Real.sin (beta / 2))
          (Real.cos (beta / 2)) a b := by
  rw [small_d_matrix]
  set s := Real.sin (beta / 2) with hs
  set c := Real.cos (beta / 2) with hc
  have h1 : (∑ l ∈ Finset.range (j + 1), s ^ l * c ^ (j - l) * small_d_weight j l a b) =
      ∑ kk ∈ Finset.range (j + 1), ∑ l ∈ Finset.range (j + 1),
        (if (l : ℤ) = 2 * kk + a - b ∧ (b : ℤ) - a ≤ kk ∧ (kk : ℤ) ≤ (j : ℤ) - a ∧ kk ≤ b then
          s ^ l * c ^ (j - l) * wTerm j a b kk
        else 0) := by
    rw [← Finset.sum_comm]
    apply Finset.sum_congr rfl
    intro l _
    rw [small_d_weight_eq, Finset.mul_sum]
    apply Finset.sum_congr rfl
    intro kk _
    rw [mul_ite, mul_zero]
  rw [h1]
  have h2 : ∀ kk ∈ Finset.range (j + 1),
      (∑ l ∈ Finset.range (j + 1),
        (if (l : ℤ) = 2 * kk + a - b ∧ (b : ℤ) - a ≤ kk ∧ (kk : ℤ) ≤ (j : ℤ) - a ∧ kk ≤ b then
          s ^ l * c ^ (j - l) * wTerm j a b kk
        else 0)) = dTermL s c j a b kk := by
    intro kk hkk
    have hkkj : kk ≤ j := by
      have := Finset.mem_range.mp hkk
      omega
    rw [dTermL]
    by_cases hg : (b : ℤ) - a ≤ kk ∧ (kk : ℤ) ≤ (j : ℤ) - a ∧ kk ≤ b
    · obtain ⟨hg1, hg2, hg3⟩ := hg
      rw [if_pos ⟨hg1, hg2, hg3⟩]
      refine (Finset.sum_eq_single (2 * kk + a - b) ?_ ?_).trans ?_
      · intro l _ hne
        rw [if_neg]
        rintro ⟨hl1, -⟩
        exact hne (by omega)
      · intro habs
        exact absurd (Finset.mem_range.mpr (by omega)) habs
      · rw [if_pos ⟨by omega, hg1, hg2, hg3⟩]
    · rw [if_neg hg]
      apply Finset.sum_eq_zero
      intro l _
      rw [if_neg]
      rintro ⟨-, h2', h3', h4'⟩
      exact hg ⟨h2', h3', h4'⟩
  rw [Finset.sum_congr rfl h2]
  calc (∑ kk ∈ Finset.range (j + 1), dTermL s c j a b kk)
      = ∑ kk ∈ Finset.range (b + 1), dTermL s c j a b kk := by
        refine (Finset.sum_subset (Finset.range_subset.mpr (by omega)) ?_).symm
        intro kk _ hnkk
        rw [dTermL, if_neg]
        rintro ⟨-, -, h3'⟩
        exact hnkk (Finset.mem_range.mpr (by omega))
    _ = ∑ u ∈ Finset.range (b + 1), dTermL s c j a b (b - u) := by
        rw [← Finset.sum_range_reflect (fun kk => dTermL s c j a b kk) (b + 1)]
        simp only [Nat.add_sub_cancel]
    _ = DeltaW j a / DeltaW j b * Nexpl j c (-s) s c a b := by
        rw [Nexpl, Finset.mul_sum]
        have hz : ∀ x ∈ Finset.range (j + 1), x ∉ Finset.range (b + 1) →
            DeltaW j a / DeltaW j b *
              (if x ≤ b ∧ x ≤ a ∧ a + b ≤ j + x then
                (b.choose x : ℝ) * ((j - b).choose (a - x) : ℝ) *
                  (c ^ x * s ^ (b - x) * ((-s) ^ (a - x) * c ^ (j - b - (a - x))))
              else 0) = 0 := by
          intro x _ hnx
          rw [if_neg, mul_zero]
          rintro ⟨hxb, -⟩
          exact hnx (Finset.mem_range.mpr (by omega))
        rw [← Finset.sum_subset (Finset.range_subset.mpr (show b + 1 ≤ j + 1 by omega)) hz]
        apply Finset.sum_congr rfl
        intro u hu
        have hub : u ≤ b := by
          have := Finset.mem_range.mp hu
          omega
        exact smallD_term_eq s c j a b u hb hub

/-- Row orthogonality of the small-d matrix over the full index range. -/
theorem smallD_row_ortho (beta : ℝ) (j a a' : ℕ) (ha : a ≤ j) (ha' : a' ≤ j) :
    (∑ b ∈ Finset.range (j + 1), small_d_matrix beta j a b * small_d_matrix beta j a' b) =
      if a = a' then 1 else 0 := by
  set s := Real.sin (beta / 2) with hs
  set c := Real.cos (beta / 2) with hc
  have hcs : s ^ 2 + c ^ 2 = 1 := Real.sin_sq_add_cos_sq (beta / 2)
  have hstep : ∀ b ∈ Finset.range (j + 1),
      small_d_matrix beta j a b * small_d_matrix beta j a' b =
        DeltaW j a / DeltaW j a' *
          (Nmat j c (-s) s c a b * Nmat j c s (-s) c b a') := by
    intro b hb
    have hbj : b ≤ j := by
      have := Finset.mem_range.mp hb
      omega
    rw [small_d_eq beta j a b hbj, small_d_eq beta j a' b hbj]
    have hsym := Nexpl_symm j b a' c s hbj ha'
    have hA'ne : ((a'.factorial * (j - a').factorial : ℕ) : ℝ) ≠ 0 := by
      exact_mod_cast Nat.mul_ne_zero a'.factorial_ne_zero (j - a').factorial_ne_zero
    have h2 : Nexpl j c (-s) s c a' b =
        ((b.factorial * (j - b).factorial : ℕ) : ℝ) /
            ((a'.factorial * (j - a').factorial : ℕ) : ℝ) *
          Nexpl j c s (-s) c b a' := by
      rw [div_mul_eq_mul_div, eq_div_iff hA'ne]
      linear_combination -hsym
    rw [h2]
    have hΔb : DeltaW j b * DeltaW j b = ((b.factorial * (j - b).factorial : ℕ) : ℝ) := by
      rw [DeltaW]
      exact Real.mul_self_sqrt (by positivity)
    have hΔa' : DeltaW j a' * DeltaW j a' =
        ((a'.factorial * (j - a').factorial : ℕ) : ℝ) := by
      rw [DeltaW]
      exact Real.mul_self_sqrt (by positivity)
    have hΔbne : DeltaW j b ≠ 0 := ne_of_gt (DeltaW_pos j b)
    have hΔa'ne : DeltaW j a' ≠ 0 := ne_of_gt (DeltaW_pos j a')
    rw [← hΔb, ← hΔa', Nmat_eq_Nexpl j c (-s) s c a b ha hbj,
      Nmat_eq_Nexpl j c s (-s) c b a' hbj ha']
    field_simp
    ring
  rw [Finset.sum_congr rfl hstep, ← Finset.mul_sum]
  have hmain : (∑ b ∈ Finset.range (j + 1),
      Nmat j c (-s) s c a b * Nmat j c s (-s) c b a') = if a = a' then 1 else 0 := by
    have hw : (bind₁ (sub2 c s (-s) c) (basisMon j a')).IsHomogeneous j :=
      bind₁_sub2_homog c s (-s) c j a' ha'
    have hcomp := coeff_comp j a a' (sub2 c (-s) s c) (sub2 c s (-s) c) hw
    have hL : coeff (monIdx j a) (bind₁ (sub2 c (-s) s c)
        (bind₁ (sub2 c s (-s) c) (basisMon j a'))) = if a = a' then 1 else 0 := by
      rw [bind₁_bind₁, rot_comp c s hcs]
      exact coeff_id_sub j a a'
    rw [← hL, hcomp]
    apply Finset.sum_congr rfl
    intro k _
    rw [Nmat, Nmat]
  rw [hmain]
  by_cases h : a = a'
  · subst h
    rw [if_pos rfl, mul_one, div_self (ne_of_gt (DeltaW_pos j a))]
  · rw [if_neg h, mul_zero]

end WignerUnitarity4

section WignerUnitarity5

theorem exp_i_mul_conj (θ : ℝ) (m : ℤ) :
    exp_i θ m * (starRingEnd ℂ) (exp_i θ m) = 1 := by
  rw [exp_i, ← Complex.exp_conj, ← Complex.exp_add]
  have harg : (starRingEnd ℂ) (Complex.I * ((m : ℝ) * θ)) =
      -(Complex.I * ((m : ℝ) * θ)) := by
    simp [map_mul, Complex.conj_I, Complex.conj_ofReal]
  rw [harg, add_neg_cancel, Complex.exp_zero]

/-- C5 (confirmed): for every spin label `j` (doubled-integer encoding) and
all real Euler angles, the matrix returned by `D_matrix_conj` is unitary:
the product of the matrix with its conjugate transpose is the
`(j+1) x (j+1)` identity, entrywise for every event. -/
theorem C5_D_matrix_unitary (j : ℕ) (alpha beta gamma : ℝ) (a a' : ℕ)
    (ha : a ≤ j) (ha' : a' ≤ j) :
    (∑ b ∈ Finset.range (j + 1),
      D_matrix_conj alpha beta gamma j a b *
        (starRingEnd ℂ) (D_matrix_conj alpha beta gamma j a' b)) =
      if a = a' then 1 else 0 := by
  have hsplit : ∀ b, D_matrix_conj alpha beta gamma j a b *
      (starRingEnd ℂ) (D_matrix_conj alpha beta gamma j a' b) =
        (exp_i alpha (mval j a) * (starRingEnd ℂ) (exp_i alpha (mval j a'))) *
          ((small_d_matrix beta j a b * small_d_matrix beta j a' b : ℝ) : ℂ) := by
    intro b
    rw [D_matrix_conj, D_matrix_conj, map_mul, map_mul, Complex.conj_ofReal]
    have hγ := exp_i_mul_conj gamma (mval j b)
    push_cast
    linear_combination (exp_i alpha (mval j a) * (starRingEnd ℂ) (exp_i alpha (mval j a')) *
      (small_d_matrix beta j a b : ℂ) * (small_d_matrix beta j a' b : ℂ)) * hγ
  rw [Finset.sum_congr rfl (fun b _ => hsplit b), ← Finset.mul_sum, ← Complex.ofReal_sum,
    smallD_row_ortho beta j a a' ha ha']
  by_cases h : a = a'
  · subst h
    rw [if_pos rfl, Complex.ofReal_one, mul_one, if_pos rfl]
    exact exp_i_mul_conj alpha (mval j a)
  · rw [if_neg h, if_neg h, Complex.ofReal_zero, mul_zero]

/-- Witness for C5 at the concrete input `j = 0`, zero Euler angles. -/
theorem C5_witness : (0 : ℕ) ≤ 0 ∧
    (∑ b ∈ Finset.range (0 + 1),
      D_matrix_conj 0 0 0 0 0 b * (starRingEnd ℂ) (D_matrix_conj 0 0 0 0 0 b)) =
      if (0 : ℕ) = 0 then 1 else 0 :=
  ⟨le_refl 0, C5_D_matrix_unitary 0 0 0 0 0 0 (le_refl 0) (le_refl 0)⟩

end WignerUnitarity5
